import Mathlib

/-!
Verification of the virtio split-virtqueue driver/device core and the vsock
connection manager, as implemented in src/queue.rs and
src/device/socket/connectionmanager.rs of the repository.

The Rust code is shallowly embedded: machine integers (u16/u32/u64/usize)
become Nat, with an explicit mod 2^16 where a wrapping u16 counter genuinely
wraps; slices become List; a Rust panic (failed assert, index out of bounds,
division by zero, unwrap of None) is modelled as a distinguished result
(None, or a dedicated panic constructor), kept separate from the error
returns of fallible functions.
-/

namespace Virtio

/-! ## RingBuffer (src/device/socket/connectionmanager.rs, lines 578-656)

The fixed-capacity byte ring used for per-connection RX buffering.
Backing bytes are modelled as a List Nat (each entry one byte). -/

structure RingBuffer where
  buffer : List Nat
  used : Nat
  start : Nat
deriving DecidableEq, Repr

/-- Model of RingBuffer::new: a zeroed backing store of the given capacity. -/
def RingBuffer.new (capacity : Nat) : RingBuffer :=
  { buffer := List.replicate capacity 0, used := 0, start := 0 }

/-- Model of RingBuffer::is_empty. -/
def RingBuffer.isEmpty (rb : RingBuffer) : Bool :=
  rb.used == 0

/-- Model of RingBuffer::free, the number of free bytes (buffer.len() - used). -/
def RingBuffer.freeBytes (rb : RingBuffer) : Nat :=
  rb.buffer.length - rb.used

/-- Model of a Rust copy_from_slice into l at positions [pos, pos + seg.length):
exact when pos + seg.length is at most l.length, which holds at every use. -/
def writeSeg (l : List Nat) (pos : Nat) (seg : List Nat) : List Nat :=
  l.take pos ++ seg ++ l.drop (pos + seg.length)

/-- Model of RingBuffer::add. Returns none when the Rust code panics (the
modulus (start + used) % buffer.len() with a zero-capacity buffer), some
(false, rb) when the add is refused, and some (true, rb') on success. -/
def RingBuffer.add (rb : RingBuffer) (bytes : List Nat) : Option (Bool × RingBuffer) :=
  if bytes.length > rb.freeBytes then some (false, rb)
  else if rb.buffer.length = 0 then none
  else
    let first_available := (rb.start + rb.used) % rb.buffer.length
    let copy_length_before_wraparound := min bytes.length (rb.buffer.length - first_available)
    let buf1 := writeSeg rb.buffer first_available (bytes.take copy_length_before_wraparound)
    let buf2 := writeSeg buf1 0 (bytes.drop copy_length_before_wraparound)
    some (true, { buffer := buf2, used := rb.used + bytes.length, start := rb.start })

/-- Model of RingBuffer::drain, taking the length of the caller's slice.
Returns none when the Rust code panics (modulus by a zero capacity), and
otherwise the list of bytes copied into the front of the out slice, together
with the new ring state. -/
def RingBuffer.drain (rb : RingBuffer) (outLen : Nat) : Option (List Nat × RingBuffer) :=
  let bytes_read := min rb.used outLen
  let read_before_wraparound := min bytes_read (rb.buffer.length - rb.start)
  let read_after_wraparound := bytes_read - read_before_wraparound
  let out := (rb.buffer.drop rb.start).take read_before_wraparound ++
    rb.buffer.take read_after_wraparound
  if rb.buffer.length = 0 then none
  else
    some (out, { buffer := rb.buffer, used := rb.used - bytes_read,
                 start := (rb.start + bytes_read) % rb.buffer.length })

/-- Abstraction function: the bytes currently held by the ring, in FIFO order. -/
def RingBuffer.contents (rb : RingBuffer) : List Nat :=
  (rb.buffer.drop rb.start ++ rb.buffer.take rb.start).take rb.used

/-- Well-formedness of a ring buffer state, as maintained by the code. -/
def RingBuffer.WF (rb : RingBuffer) : Prop :=
  rb.used ≤ rb.buffer.length ∧ rb.start < rb.buffer.length

theorem RingBuffer.WF_new (capacity : Nat) (h : 1 ≤ capacity) : (RingBuffer.new capacity).WF := by
  constructor
  · simp [RingBuffer.new]
  · simpa [RingBuffer.new] using h

theorem mod_two_blocks (a c : Nat) (hc : 0 < c) (h : a < 2 * c) :
    a % c = if a < c then a else a - c := by
  split
  · exact Nat.mod_eq_of_lt (by assumption)
  · rw [Nat.mod_eq_sub_mod (by omega)]
    exact Nat.mod_eq_of_lt (by omega)

/-- Rotated view of the backing store: the byte at logical position i of
the ring is (rotBuf rb)[i]. -/
def rotBuf (rb : RingBuffer) : List Nat :=
  rb.buffer.drop rb.start ++ rb.buffer.take rb.start

theorem length_rotBuf (rb : RingBuffer) (h : rb.start ≤ rb.buffer.length) :
    (rotBuf rb).length = rb.buffer.length := by
  simp [rotBuf]
  omega

theorem contents_eq_take_rotBuf (rb : RingBuffer) :
    rb.contents = (rotBuf rb).take rb.used := rfl

theorem getElem?_rotBuf (rb : RingBuffer) (i : Nat)
    (hs : rb.start ≤ rb.buffer.length) (hi : i < rb.buffer.length) :
    (rotBuf rb)[i]? = rb.buffer[(rb.start + i) % rb.buffer.length]? := by
  unfold rotBuf
  rw [List.getElem?_append]
  rw [List.length_drop]
  rw [mod_two_blocks _ _ (by omega) (by omega)]
  by_cases hcase : i < rb.buffer.length - rb.start
  · rw [if_pos hcase, List.getElem?_drop, if_pos (by omega)]
  · rw [if_neg hcase, List.getElem?_take, if_pos (by omega), if_neg (by omega)]
    congr 1
    omega

theorem length_writeSeg (l seg : List Nat) (pos : Nat) (h : pos + seg.length ≤ l.length) :
    (writeSeg l pos seg).length = l.length := by
  simp [writeSeg]
  omega

theorem getElem?_writeSeg (l seg : List Nat) (pos i : Nat) (h : pos + seg.length ≤ l.length) :
    (writeSeg l pos seg)[i]? =
      if pos ≤ i ∧ i < pos + seg.length then seg[i - pos]? else l[i]? := by
  unfold writeSeg
  rw [List.getElem?_append, List.getElem?_append]
  have hlt : (List.take pos l).length = pos := by
    rw [List.length_take]; omega
  have hts : (List.take pos l ++ seg).length = pos + seg.length := by
    rw [List.length_append, hlt]
  rw [hts, hlt]
  by_cases h1 : i < pos
  · rw [if_pos (by omega), if_pos h1, if_neg (by omega), List.getElem?_take, if_pos h1]
  · by_cases h2 : i < pos + seg.length
    · rw [if_pos h2, if_neg h1, if_pos (by omega)]
    · rw [if_neg h2, if_neg (by omega), List.getElem?_drop]
      congr 1
      omega

theorem RingBuffer.add_refused (rb : RingBuffer) (bytes : List Nat)
    (h : bytes.length > rb.freeBytes) : rb.add bytes = some (false, rb) := by
  simp [RingBuffer.add, h]

theorem RingBuffer.add_ok (rb : RingBuffer) (bytes : List Nat) (hwf : rb.WF)
    (hcap : 0 < rb.buffer.length) (hle : bytes.length ≤ rb.freeBytes) :
    ∃ rb', rb.add bytes = some (true, rb') ∧ rb'.WF ∧
      rb'.buffer.length = rb.buffer.length ∧
      rb'.used = rb.used + bytes.length ∧ rb'.start = rb.start ∧
      rb'.contents = rb.contents ++ bytes := by
  obtain ⟨hu, hs⟩ := hwf
  have hfree : rb.freeBytes = rb.buffer.length - rb.used := rfl
  set cap := rb.buffer.length with hcapdef
  set s := rb.start with hsdef
  set u := rb.used with hudef
  set n := bytes.length with hndef
  have hfa : (s + u) % cap = if s + u < cap then s + u else s + u - cap :=
    mod_two_blocks _ _ hcap (by omega)
  set fa := (s + u) % cap with hfadef
  have hfa2 : (s + u < cap ∧ fa = s + u) ∨ (cap ≤ s + u ∧ fa = s + u - cap) := by
    by_cases hy : s + u < cap
    · exact Or.inl ⟨hy, by rw [hfa, if_pos hy]⟩
    · exact Or.inr ⟨by omega, by rw [hfa, if_neg hy]⟩
  have hfalt : fa < cap := Nat.mod_lt _ hcap
  set cb := min n (cap - fa) with hcbdef
  have hcb1 : fa + cb ≤ cap := by omega
  set buf1 := writeSeg rb.buffer fa (bytes.take cb) with hbuf1def
  have hlen1 : buf1.length = cap := by
    rw [hbuf1def, length_writeSeg]
    rw [List.length_take]; omega
  set buf2 := writeSeg buf1 0 (bytes.drop cb) with hbuf2def
  have hlen2 : buf2.length = cap := by
    rw [hbuf2def, length_writeSeg] <;> rw [hlen1]
    rw [List.length_drop]; omega
  set rb' : RingBuffer := { buffer := buf2, used := u + n, start := s } with hrbdef
  have hadd : rb.add bytes = some (true, rb') := by
    unfold RingBuffer.add
    rw [if_neg (by omega), if_neg (by omega)]
  refine ⟨rb', hadd, ⟨by simp [hrbdef, hlen2]; omega, by simp [hrbdef, hlen2]; omega⟩,
    by simp [hrbdef, hlen2], rfl, rfl, ?_⟩
  -- contents rb' = contents rb ++ bytes, proved pointwise in the rotated frame
  have hrot : rotBuf rb' = writeSeg (rotBuf rb) u bytes := by
    apply List.ext_getElem?
    intro i
    have hlenL : (rotBuf rb').length = cap := by
      rw [length_rotBuf] <;> simp [hrbdef, hlen2]
      omega
    have hlenrot : (rotBuf rb).length = cap := length_rotBuf rb (by omega)
    have hlenR : (writeSeg (rotBuf rb) u bytes).length = cap := by
      rw [length_writeSeg] <;> rw [hlenrot]
      omega
    by_cases hi : i < cap
    case neg =>
      rw [List.getElem?_eq_none (by omega), List.getElem?_eq_none (by omega)]
    case pos =>
    rw [getElem?_writeSeg _ _ _ _ (by rw [hlenrot]; omega)]
    have hL : (rotBuf rb')[i]? = buf2[(s + i) % cap]? := by
      have := getElem?_rotBuf rb' i (by simp [hrbdef, hlen2]; omega) (by simp [hrbdef, hlen2]; omega)
      simpa [hrbdef, hlen2] using this
    rw [hL]
    have hji : (s + i) % cap = if s + i < cap then s + i else s + i - cap :=
      mod_two_blocks _ _ hcap (by omega)
    set j := (s + i) % cap with hjdef
    have hji2 : (s + i < cap ∧ j = s + i) ∨ (cap ≤ s + i ∧ j = s + i - cap) := by
      by_cases hy : s + i < cap
      · exact Or.inl ⟨hy, by rw [hji, if_pos hy]⟩
      · exact Or.inr ⟨by omega, by rw [hji, if_neg hy]⟩
    have hjlt : j < cap := Nat.mod_lt _ hcap
    have h2 : buf2[j]? = if j < n - cb then bytes[cb + j]? else buf1[j]? := by
      rw [hbuf2def, getElem?_writeSeg _ _ _ _ (by rw [hlen1, List.length_drop]; omega)]
      by_cases hc : j < (bytes.drop cb).length
      · rw [if_pos (by constructor <;> [omega; simpa using hc]),
          List.getElem?_drop, if_pos (by simp at hc; omega)]
        simp
      · rw [if_neg (by simp at hc ⊢; omega), if_neg (by simp at hc; omega)]
    have h1 : ∀ k, buf1[k]? =
        if fa ≤ k ∧ k < fa + cb then bytes[k - fa]? else rb.buffer[k]? := by
      intro k
      rw [hbuf1def, getElem?_writeSeg _ _ _ _ (by rw [List.length_take]; omega)]
      by_cases hc : fa ≤ k ∧ k < fa + cb
      · rw [if_pos (by rw [List.length_take]; omega), if_pos hc, List.getElem?_take,
          if_pos (by omega)]
      · rw [if_neg (by rw [List.length_take]; omega), if_neg hc]
    by_cases hiu : i < u
    · -- untouched region: position j carries the old byte
      rw [if_neg (by omega), h2, if_neg (by omega), h1, if_neg (by omega)]
      rw [getElem?_rotBuf rb i (by omega) (by omega)]
    · by_cases hin : i < u + n
      · -- newly written region
        rw [if_pos (by omega)]
        set k := i - u with hkdef
        by_cases hkc : k < cb
        · have hjeq : j = fa + k := by omega
          rw [h2, if_neg (by omega), h1, if_pos (by omega), hjeq]
          congr 1
          omega
        · have hcbne : cb = cap - fa := by omega
          have hjeq : j = k - cb := by omega
          rw [h2, if_pos (by omega), hjeq]
          congr 1
          omega
      · -- beyond the written region
        rw [if_neg (by omega), h2, if_neg (by omega), h1, if_neg (by omega)]
        rw [getElem?_rotBuf rb i (by omega) (by omega)]
  rw [contents_eq_take_rotBuf, contents_eq_take_rotBuf]
  show (rotBuf rb').take (u + n) = (rotBuf rb).take u ++ bytes
  rw [hrot]
  unfold writeSeg
  have hlenrot : (rotBuf rb).length = cap := length_rotBuf rb (by omega)
  have hAB : ((rotBuf rb).take u ++ bytes).length = u + n := by
    rw [List.length_append, List.length_take, hlenrot]
    omega
  rw [List.take_append_eq_append_take, List.take_of_length_le (le_of_eq hAB),
    hAB, Nat.sub_self, List.take_zero, List.append_nil]

theorem RingBuffer.drain_ok (rb : RingBuffer) (outLen : Nat) (hwf : rb.WF)
    (hcap : 0 < rb.buffer.length) :
    ∃ rb', rb.drain outLen = some (rb.contents.take (min rb.used outLen), rb') ∧ rb'.WF ∧
      rb'.buffer = rb.buffer ∧
      rb'.used = rb.used - min rb.used outLen ∧
      rb'.contents = rb.contents.drop (min rb.used outLen) := by
  obtain ⟨hu, hs⟩ := hwf
  set cap := rb.buffer.length with hcapdef
  set s := rb.start with hsdef
  set u := rb.used with hudef
  set br := min u outLen with hbrdef
  have hbru : br ≤ u := by omega
  have hlenrot : (rotBuf rb).length = cap := length_rotBuf rb (by omega)
  set rbw := min br (cap - s) with hrbwdef
  set raw := br - rbw with hrawdef
  set out := (rb.buffer.drop s).take rbw ++ rb.buffer.take raw with houtdef
  have hout : out = rb.contents.take br := by
    rw [houtdef, contents_eq_take_rotBuf, List.take_take, min_eq_left (by omega)]
    unfold rotBuf
    rw [List.take_append_eq_append_take, List.length_drop]
    by_cases hcase : br ≤ cap - s
    · have h1 : rbw = br := by omega
      have h2 : raw = 0 := by omega
      have h3 : br - (cap - s) = 0 := by omega
      rw [h1, h2, h3, List.take_zero, List.take_zero]
    · have hA : (rb.buffer.drop s).take rbw = rb.buffer.drop s := by
        apply List.take_of_length_le
        rw [List.length_drop]
        omega
      have hB : (rb.buffer.drop s).take br = rb.buffer.drop s := by
        apply List.take_of_length_le
        rw [List.length_drop]
        omega
      have hC : (rb.buffer.take s).take (br - (cap - s)) = rb.buffer.take (br - (cap - s)) := by
        rw [List.take_take, min_eq_left (by omega)]
      have hraw : raw = br - (cap - s) := by omega
      rw [hA, hB, hC, hraw]
  set s2 := (s + br) % cap with hs2def
  have hs2lt : s2 < cap := Nat.mod_lt _ hcap
  set rb' : RingBuffer := { buffer := rb.buffer, used := u - br, start := s2 } with hrbdef
  have hdrain : rb.drain outLen = some (out, rb') := by
    unfold RingBuffer.drain
    rw [if_neg (by omega)]
  have hwf' : rb'.WF := by
    constructor
    · show u - br ≤ rb.buffer.length
      omega
    · show s2 < rb.buffer.length
      omega
  refine ⟨rb', by rw [hdrain, hout], hwf', rfl, rfl, ?_⟩
  -- contents rb' = contents rb |>.drop br, pointwise
  apply List.ext_getElem?
  intro i
  rw [contents_eq_take_rotBuf, contents_eq_take_rotBuf, List.getElem?_drop, List.getElem?_take,
    List.getElem?_take]
  by_cases hi : i < u - br
  · rw [if_pos (show i < rb'.used from hi), if_pos (by omega)]
    have hb1 : rb'.start ≤ rb'.buffer.length := by
      show s2 ≤ rb.buffer.length
      omega
    have hb2 : i < rb'.buffer.length := by
      show i < rb.buffer.length
      omega
    have hL : (rotBuf rb')[i]? = rb.buffer[(s2 + i) % rb.buffer.length]? :=
      getElem?_rotBuf rb' i hb1 hb2
    have hR : (rotBuf rb)[br + i]? = rb.buffer[(s + (br + i)) % rb.buffer.length]? :=
      getElem?_rotBuf rb (br + i) (by omega) (by omega)
    rw [hL, hR, hs2def, Nat.mod_add_mod]
    congr 2
    omega
  · rw [if_neg (show ¬ i < rb'.used from hi), if_neg (by omega)]

theorem RingBuffer.contents_length (rb : RingBuffer) (hwf : rb.WF) :
    rb.contents.length = rb.used := by
  obtain ⟨hu, hs⟩ := hwf
  rw [contents_eq_take_rotBuf, List.length_take, length_rotBuf rb (by omega)]
  omega

theorem RingBuffer.contents_nil_of_empty (rb : RingBuffer) (h : rb.isEmpty = true) :
    rb.contents = [] := by
  have hz : rb.used = 0 := by
    simpa [RingBuffer.isEmpty] using h
  rw [contents_eq_take_rotBuf, hz, List.take_zero]

/-- An operation on a RingBuffer, for stating the history property. -/
inductive RbOp where
  | add (bytes : List Nat)
  | drain (outLen : Nat)

/-- Runs a sequence of add and drain operations, accumulating the
concatenation of successfully added bytes and of drained bytes. Returns
none if any operation panics. -/
def runOps (rb : RingBuffer) : List RbOp → Option (RingBuffer × List Nat × List Nat)
  | [] => some (rb, [], [])
  | RbOp.add bytes :: rest =>
    match rb.add bytes with
    | none => none
    | some (ok, rb1) =>
      match runOps rb1 rest with
      | none => none
      | some (rbf, added, drained) => some (rbf, (if ok then bytes else []) ++ added, drained)
  | RbOp.drain n :: rest =>
    match rb.drain n with
    | none => none
    | some (out, rb1) =>
      match runOps rb1 rest with
      | none => none
      | some (rbf, added, drained) => some (rbf, added, out ++ drained)

theorem runOps_spec (ops : List RbOp) : ∀ rb : RingBuffer, rb.WF → 0 < rb.buffer.length →
    ∃ rbf added drained, runOps rb ops = some (rbf, added, drained) ∧ rbf.WF ∧
      rbf.buffer.length = rb.buffer.length ∧
      rb.contents ++ added = drained ++ rbf.contents := by
  induction ops with
  | nil =>
    intro rb hwf hcap
    exact ⟨rb, [], [], rfl, hwf, rfl, by simp⟩
  | cons op rest ih =>
    intro rb hwf hcap
    cases op with
    | add bytes =>
      by_cases hle : bytes.length ≤ rb.freeBytes
      · obtain ⟨rb1, hadd, hwf1, hlen1, _, _, hcon1⟩ := rb.add_ok bytes hwf hcap hle
        obtain ⟨rbf, a1, d1, hrun, hwff, hlenf, hinv⟩ := ih rb1 hwf1 (by omega)
        refine ⟨rbf, bytes ++ a1, d1, ?_, hwff, by omega, ?_⟩
        · simp only [runOps, hadd, hrun, if_pos]
        · rw [← List.append_assoc, ← hcon1, hinv]
      · obtain hadd := rb.add_refused bytes (by omega)
        obtain ⟨rbf, a1, d1, hrun, hwff, hlenf, hinv⟩ := ih rb hwf hcap
        refine ⟨rbf, [] ++ a1, d1, ?_, hwff, by omega, ?_⟩
        · simp only [runOps, hadd, hrun, if_neg]
          simp
        · simpa using hinv
    | drain n =>
      obtain ⟨rb1, hdrain, hwf1, hbuf1, _, hcon1⟩ := rb.drain_ok n hwf hcap
      obtain ⟨rbf, a1, d1, hrun, hwff, hlenf, hinv⟩ := ih rb1 hwf1 (by rw [hbuf1]; omega)
      refine ⟨rbf, a1, rb.contents.take (min rb.used n) ++ d1, ?_, hwff, by rw [hlenf, hbuf1], ?_⟩
      · simp only [runOps, hdrain, hrun]
      · have hsplit : rb.contents =
            rb.contents.take (min rb.used n) ++ rb.contents.drop (min rb.used n) := by
          rw [List.take_append_drop]
        conv_lhs => rw [hsplit]
        rw [← hcon1, List.append_assoc, hinv, List.append_assoc]

/-- Claim C2, counterexample. The claim quantifies over RingBuffers of any
capacity, but at capacity 0 RingBuffer::add computes
(start + used) % buffer.len() with buffer.len() = 0, which panics in Rust
(modelled as none); so an add of the empty byte string is neither a success
nor an atomic refusal, although bytes.len() ≤ free holds. -/
theorem c2_rb_capacity_zero_counterexample :
    (RingBuffer.new 0).add [] = none ∧
      (List.length ([] : List Nat)) ≤ (RingBuffer.new 0).freeBytes := by
  constructor
  · rfl
  · decide

/-- Claim C2 (amended: for a RingBuffer of any positive capacity).
add(bytes) succeeds iff bytes.len() ≤ free and appends the bytes to the
contents; on refusal the buffer is completely unchanged; drain(out) removes
and returns exactly min(used, out.len()) bytes, namely the oldest buffered
bytes in order; and over any sequence of adds and drains starting from a
fresh buffer, the concatenation of successfully added bytes equals the
concatenation of drained bytes followed by the bytes still buffered (hence
the two concatenations are equal whenever the buffer has been fully
drained), wrap-around included. -/
theorem c2_ring_buffer (rb : RingBuffer) (bytes : List Nat) (outLen capacity : Nat)
    (ops : List RbOp) (hwf : rb.WF) (hcap : 0 < rb.buffer.length) (hc1 : 1 ≤ capacity) :
    ((∃ rb', rb.add bytes = some (true, rb') ∧ rb'.contents = rb.contents ++ bytes) ↔
        bytes.length ≤ rb.freeBytes) ∧
    (bytes.length > rb.freeBytes → rb.add bytes = some (false, rb)) ∧
    (∃ out rb', rb.drain outLen = some (out, rb') ∧
        out = rb.contents.take (min rb.used outLen) ∧
        out.length = min rb.used outLen ∧
        rb'.contents = rb.contents.drop (min rb.used outLen)) ∧
    (∃ rbf added drained, runOps (RingBuffer.new capacity) ops = some (rbf, added, drained) ∧
        added = drained ++ rbf.contents ∧ (rbf.isEmpty = true → added = drained)) := by
  refine ⟨⟨?_, ?_⟩, fun h => rb.add_refused bytes h, ?_, ?_⟩
  · rintro ⟨rb', hadd, _⟩
    by_contra hgt
    rw [rb.add_refused bytes (by omega)] at hadd
    simp at hadd
  · intro hle
    obtain ⟨rb', h1, _, _, _, _, h2⟩ := rb.add_ok bytes hwf hcap hle
    exact ⟨rb', h1, h2⟩
  · obtain ⟨rb', h1, hwf', _, _, h2⟩ := rb.drain_ok outLen hwf hcap
    refine ⟨_, rb', h1, rfl, ?_, h2⟩
    rw [List.length_take, rb.contents_length hwf]
    omega
  · obtain ⟨rbf, added, drained, h1, hwff, _, h2⟩ :=
      runOps_spec ops (RingBuffer.new capacity) (RingBuffer.WF_new capacity hc1)
        (by simp [RingBuffer.new]; omega)
    have hnilstart : (RingBuffer.new capacity).contents = [] := by
      simp [RingBuffer.contents, RingBuffer.new]
    rw [hnilstart] at h2
    refine ⟨rbf, added, drained, h1, by simpa using h2, ?_⟩
    intro hemp
    have hnil := rbf.contents_nil_of_empty hemp
    rw [hnil] at h2
    simpa using h2

/-- Witness for c2_ring_buffer at a concrete buffer and operation sequence. -/
theorem c2_ring_buffer_witness :
    ∃ rbf added drained,
      runOps (RingBuffer.new 10) [RbOp.add [1, 2, 3], RbOp.drain 2] = some (rbf, added, drained) ∧
      added = drained ++ rbf.contents ∧ (rbf.isEmpty = true → added = drained) :=
  (c2_ring_buffer (RingBuffer.new 3) [1, 2] 5 10 [RbOp.add [1, 2, 3], RbOp.drain 2]
    (by constructor <;> decide) (by decide) (by decide)).2.2.2

/-! ## Driver-side VirtQueue (src/queue.rs, alloc feature enabled)

The queue state holds exactly the driver-owned fields of struct VirtQueue:
the live descriptor table (driver-writable DMA memory), the trusted shadow
table, the available ring (flags, trusted avail_idx, ring slots, used_event),
num_used, free_head, last_used_idx, the negotiated feature booleans and the
indirect list sidecar. The used ring is device memory: driver functions take
its current contents as an input (UsedRingMem) rather than storing it. -/

/-- Descriptor as in src/queue.rs: addr u64, len u32, flags u16, next u16. -/
structure Descriptor where
  addr : Nat
  len : Nat
  flags : Nat
  next : Nat
deriving DecidableEq, Inhabited, Repr

/-- DescFlags::NEXT. -/
def NEXT_FLAG : Nat := 1

/-- DescFlags::WRITE. -/
def WRITE_FLAG : Nat := 2

/-- DescFlags::INDIRECT. -/
def INDIRECT_FLAG : Nat := 4

/-- Model of bitflags contains for a single-bit flag on a u16 field. -/
def hasFlag (flags f : Nat) : Bool := flags &&& f != 0

/-- Model of bitflags remove for a single-bit flag on a u16 field. -/
def rmFlag (flags f : Nat) : Nat := flags &&& (65535 ^^^ f)

/-- One buffer handed to VirtQueue::add, after the HAL share: the
device-visible physical address the HAL returned, and the buffer length. -/
structure Buffer where
  paddr : Nat
  len : Nat
deriving DecidableEq, Inhabited, Repr

/-- Model of BufferDirection from src/hal.rs. -/
inductive Dir where
  | driverToDevice
  | deviceToDriver
  | both
deriving DecidableEq, Repr

/-- Model of InputOutputIter: all inputs (device readable) first, then all
outputs (device writable). -/
def ioSeq (inputs outputs : List Buffer) : List (Buffer × Dir) :=
  inputs.map (fun b => (b, Dir.driverToDevice)) ++
    outputs.map (fun b => (b, Dir.deviceToDriver))

/-- Error kinds of the crate that the modelled functions can return. -/
inductive VError where
  | invalidParam
  | queueFull
  | notReady
  | wrongToken
  | invalidDescriptor
  | unsupported
  | notConnected
  | connectionExists
  | outputBufferTooShort (length : Nat)
deriving DecidableEq, Repr

structure VQ (SIZE : Nat) where
  desc : List Descriptor
  desc_shadow : List Descriptor
  avail_flags : Nat
  avail_idx : Nat
  avail_ring : List Nat
  avail_used_event : Nat
  num_used : Nat
  free_head : Nat
  last_used_idx : Nat
  event_idx : Bool
  indirect : Bool
  indirect_lists : List (Option (List Descriptor))
deriving DecidableEq, Repr

/-- The shadow (and live) descriptor table as VirtQueue::new links it:
desc_shadow[i].next = i + 1 for i < SIZE - 1, the rest zeroed. -/
def initDescs (SIZE : Nat) : List Descriptor :=
  (List.range SIZE).map (fun i =>
    { addr := 0, len := 0, flags := 0, next := if i + 1 < SIZE then i + 1 else 0 })

/-- Model of VirtQueue::new after a successful allocation (the transport
checks queue_used and max_queue_size concern the external transport and are
not part of the queue state). -/
def newVQ (SIZE : Nat) (event_idx indirect : Bool) : VQ SIZE :=
  { desc := initDescs SIZE
    desc_shadow := initDescs SIZE
    avail_flags := 0
    avail_idx := 0
    avail_ring := List.replicate SIZE 0
    avail_used_event := 0
    num_used := 0
    free_head := 0
    last_used_idx := 0
    event_idx := event_idx
    indirect := indirect
    indirect_lists := List.replicate SIZE none }

/-- The device-written used ring as the driver reads it: flags, idx, the
(id, len) entries, and avail_event. -/
structure UsedRingMem where
  flags : Nat
  idx : Nat
  ring : List (Nat × Nat)
  avail_event : Nat
deriving DecidableEq, Repr

/-- Model of Descriptor::set_buf. The addr field receives the HAL share
result, which the model takes as an argument; set_buf panics on
BufferDirection::Both (modelled as none). -/
def Descriptor.setBuf (d : Descriptor) (paddr blen : Nat) (dir : Dir) (extra : Nat) :
    Option Descriptor :=
  match dir with
  | Dir.driverToDevice => some { d with addr := paddr, len := blen, flags := extra }
  | Dir.deviceToDriver => some { d with addr := paddr, len := blen, flags := extra ||| WRITE_FLAG }
  | Dir.both => none

/-- Model of VirtQueue::write_desc: copy one shadow slot to the live table. -/
def VQ.writeDesc {SIZE : Nat} (q : VQ SIZE) (index : Nat) : VQ SIZE :=
  { q with desc := q.desc.set index (q.desc_shadow.getD index default) }

/-- Model of VirtQueue::should_notify, reading avail_event and flags from
the used ring. The u16 wrapping_add(1) becomes + 1 mod 2^16. -/
def VQ.shouldNotify {SIZE : Nat} (q : VQ SIZE) (used : UsedRingMem) : Bool :=
  if q.event_idx then
    decide ((used.avail_event + 1) % 65536 ≤ q.avail_idx)
  else
    used.flags &&& 1 == 0

/-- Model of VirtQueue::set_dev_notify. -/
def VQ.setDevNotify {SIZE : Nat} (q : VQ SIZE) (enable : Bool) : VQ SIZE :=
  let avail_ring_flags := if enable then 0 else 1
  if !q.event_idx then { q with avail_flags := avail_ring_flags } else q

/-- Model of VirtQueue::can_pop. -/
def VQ.canPop {SIZE : Nat} (q : VQ SIZE) (used : UsedRingMem) : Bool :=
  q.last_used_idx != used.idx

/-- Model of the loop of VirtQueue::add_direct. Returns none when the Rust
code panics: assert_ne on an empty buffer, desc_shadow indexed out of range,
or a Both-direction buffer. Returns the updated queue and the index of the
last descriptor written. -/
def addDirectGo {SIZE : Nat} : List (Buffer × Dir) → VQ SIZE → Nat → Option (VQ SIZE × Nat)
  | [], q, last => some (q, last)
  | (b, dir) :: rest, q, _ =>
    if b.len = 0 then none
    else if q.free_head < SIZE then
      match (q.desc_shadow.getD q.free_head default).setBuf b.paddr b.len dir NEXT_FLAG with
      | none => none
      | some d =>
        let last1 : Nat := q.free_head
        let q1 : VQ SIZE := { q with desc_shadow := q.desc_shadow.set q.free_head d }
        let q2 : VQ SIZE := { q1 with free_head := d.next }
        let q3 : VQ SIZE := q2.writeDesc last1
        addDirectGo rest q3 last1
    else none

/-- Model of VirtQueue::add_direct (src/queue.rs lines 211-245): write the
chain, clear NEXT on the last descriptor, bump num_used by the chain
length. -/
def addDirect {SIZE : Nat} (q : VQ SIZE) (inputs outputs : List Buffer) :
    Option (VQ SIZE × Nat) :=
  let head := q.free_head
  match addDirectGo (ioSeq inputs outputs) q q.free_head with
  | none => none
  | some (q1, last) =>
    if last < SIZE then
      let d : Descriptor := q1.desc_shadow.getD last default
      let d1 : Descriptor := { d with flags := rmFlag d.flags NEXT_FLAG }
      let q2 : VQ SIZE := { q1 with desc_shadow := q1.desc_shadow.set last d1 }
      let q3 : VQ SIZE := q2.writeDesc last
      let q4 : VQ SIZE := { q3 with num_used := q3.num_used + (inputs.length + outputs.length) }
      some (q4, head)
    else none

/-- Builds the indirect descriptor list of VirtQueue::add_indirect: one
zeroed descriptor per buffer filled by set_buf, next set by position. -/
def buildIndirectGo : List (Buffer × Dir) → Nat → Option (List Descriptor)
  | [], _ => some []
  | (b, dir) :: rest, i =>
    match Descriptor.setBuf default b.paddr b.len dir NEXT_FLAG with
    | none => none
    | some d =>
      match buildIndirectGo rest (i + 1) with
      | none => none
      | some ds => some ({ d with next := i + 1 } :: ds)

/-- Clears the NEXT flag on the last element of the indirect list. -/
def rmLastNext : List Descriptor → List Descriptor
  | [] => []
  | [d] => [{ d with flags := rmFlag d.flags NEXT_FLAG }]
  | d :: d2 :: rest => d :: rmLastNext (d2 :: rest)

/-- Model of VirtQueue::add_indirect (src/queue.rs lines 247-299). The HAL
share of the freshly allocated indirect list is external to the queue; the
device address it returns is not observable in any claim and is modelled
as 0; the byte length of the list is 16 bytes per descriptor. none models
the Rust panics: last_mut().unwrap() on an empty list, the assert that
indirect_lists[head] is vacant, or an out-of-range head index. -/
def addIndirect {SIZE : Nat} (q : VQ SIZE) (inputs outputs : List Buffer) :
    Option (VQ SIZE × Nat) :=
  let head := q.free_head
  match buildIndirectGo (ioSeq inputs outputs) 0 with
  | none => none
  | some ds0 =>
    if ds0.isEmpty then none
    else
      let indirect_list := rmLastNext ds0
      if head < SIZE then
        if (q.indirect_lists.getD head none).isSome then none
        else
          let q1 : VQ SIZE :=
            { q with indirect_lists := q.indirect_lists.set head (some indirect_list) }
          let direct_desc : Descriptor := q1.desc_shadow.getD head default
          let q2 : VQ SIZE := { q1 with free_head := direct_desc.next }
          match direct_desc.setBuf 0 (16 * indirect_list.length) Dir.driverToDevice
              INDIRECT_FLAG with
          | none => none
          | some dd =>
            let q3 : VQ SIZE := { q2 with desc_shadow := q2.desc_shadow.set head dd }
            let q4 : VQ SIZE := q3.writeDesc head
            let q5 : VQ SIZE := { q4 with num_used := q4.num_used + 1 }
            some (q5, head)
      else none

/-- Result of VirtQueue::add: a Rust panic, an error return (with the
untouched queue), or the returned token with the new queue state. -/
inductive AddResult (SIZE : Nat) where
  | panic
  | err (e : VError) (q : VQ SIZE)
  | ok (token : Nat) (q : VQ SIZE)
deriving DecidableEq, Repr

/-- Model of VirtQueue::add (src/queue.rs lines 157-209), alloc feature
enabled. After the chain is written the head is published in
avail_ring[avail_idx & (SIZE - 1)] and the u16 avail_idx wraps. -/
def VQ.add {SIZE : Nat} (q : VQ SIZE) (inputs outputs : List Buffer) : AddResult SIZE :=
  if inputs.isEmpty && outputs.isEmpty then AddResult.err VError.invalidParam q
  else
    let descriptors_needed := inputs.length + outputs.length
    if q.num_used + 1 > SIZE ∨ descriptors_needed > SIZE ∨
        (¬ q.indirect = true ∧ q.num_used + descriptors_needed > SIZE) then
      AddResult.err VError.queueFull q
    else
      match (if q.indirect = true ∧ descriptors_needed > 1 then addIndirect q inputs outputs
             else addDirect q inputs outputs) with
      | none => AddResult.panic
      | some (q1, head) =>
        let avail_slot : Nat := q1.avail_idx &&& (SIZE - 1)
        let q2 : VQ SIZE := { q1 with avail_ring := q1.avail_ring.set avail_slot head }
        let q3 : VQ SIZE := { q2 with avail_idx := (q2.avail_idx + 1) % 65536 }
        AddResult.ok head q3

/-- Model of the loop of recycle_descriptors on a direct chain: walks the
chain by the NEXT flag, clears each descriptor, decrements num_used once
per descriptor (exact under the proved invariant, where no u16 underflow
can occur), relinks the last descriptor to the old free head and mirrors
every shadow write into the live table. none models the Rust panics: a
chain shorter or longer than the buffer list, an empty buffer, or an
out-of-range index. -/
def recycleGo {SIZE : Nat} (original_free_head : Nat) :
    List (Buffer × Dir) → Option Nat → VQ SIZE → Option (VQ SIZE)
  | [], next?, q =>
    match next? with
    | some _ => none
    | none => some q
  | (b, _) :: rest, next?, q =>
    if b.len = 0 then none
    else
      match next? with
      | none => none
      | some desc_index =>
        if desc_index < SIZE then
          let d : Descriptor := q.desc_shadow.getD desc_index default
          let next1 : Option Nat := if hasFlag d.flags NEXT_FLAG then some d.next else none
          let newNext : Nat := if next1.isNone then original_free_head else d.next
          let d1 : Descriptor := { d with addr := 0, len := 0, next := newNext }
          let q1 : VQ SIZE := { q with desc_shadow := q.desc_shadow.set desc_index d1,
                                       num_used := q.num_used - 1 }
          let q2 : VQ SIZE := q1.writeDesc desc_index
          recycleGo original_free_head rest next1 q2
        else none

/-- Model of VirtQueue::recycle_descriptors (src/queue.rs lines 419-500).
The new free head becomes the popped head; an INDIRECT head hands its
sidecar list back (one num_used slot), a direct head walks the chain. The
HAL unshare calls touch no queue state and are not modelled. -/
def recycle {SIZE : Nat} (q : VQ SIZE) (head : Nat) (inputs outputs : List Buffer) :
    Option (VQ SIZE) :=
  let original_free_head : Nat := q.free_head
  let q0 : VQ SIZE := { q with free_head := head }
  if head < SIZE then
    let head_desc : Descriptor := q0.desc_shadow.getD head default
    if hasFlag head_desc.flags INDIRECT_FLAG then
      match q0.indirect_lists.getD head none with
      | none => none
      | some indirect_list =>
        let q1 : VQ SIZE := { q0 with indirect_lists := q0.indirect_lists.set head none }
        let d1 : Descriptor := { head_desc with addr := 0, len := 0, next := original_free_head }
        let q2 : VQ SIZE := { q1 with desc_shadow := q1.desc_shadow.set head d1,
                                      num_used := q1.num_used - 1 }
        if indirect_list.length = inputs.length + outputs.length then
          if (ioSeq inputs outputs).all (fun bd => bd.1.len != 0) then some q2
          else none
        else none
    else recycleGo original_free_head (ioSeq inputs outputs) (some head) q0
  else none

/-- Result of VirtQueue::pop_used. -/
inductive PopResult (SIZE : Nat) where
  | panic
  | err (e : VError) (q : VQ SIZE)
  | ok (len : Nat) (q : VQ SIZE)
deriving DecidableEq, Repr

/-- Model of VirtQueue::pop_used (src/queue.rs lines 511-554). The id field
of the used element is a u32 cast to u16, hence the mod 2^16; on success
last_used_idx wraps as a u16 and, under EVENT_IDX, is published in
avail.used_event. -/
def VQ.popUsed {SIZE : Nat} (q : VQ SIZE) (used : UsedRingMem) (token : Nat)
    (inputs outputs : List Buffer) : PopResult SIZE :=
  if q.canPop used = false then PopResult.err VError.notReady q
  else
    let last_used_slot := q.last_used_idx &&& (SIZE - 1)
    let e := used.ring.getD last_used_slot (0, 0)
    let index := e.1 % 65536
    if index ≠ token then PopResult.err VError.wrongToken q
    else
      match recycle q index inputs outputs with
      | none => PopResult.panic
      | some q1 =>
        let q2 : VQ SIZE := { q1 with last_used_idx := (q1.last_used_idx + 1) % 65536 }
        let q3 : VQ SIZE :=
          if q2.event_idx then { q2 with avail_used_event := q2.last_used_idx } else q2
        PopResult.ok e.2 q3

theorem add_eq {SIZE : Nat} (q : VQ SIZE) (inputs outputs : List Buffer) :
    q.add inputs outputs =
      (if inputs.isEmpty && outputs.isEmpty then AddResult.err VError.invalidParam q
      else if q.num_used + 1 > SIZE ∨ inputs.length + outputs.length > SIZE ∨
          (¬ q.indirect = true ∧ q.num_used + (inputs.length + outputs.length) > SIZE) then
        AddResult.err VError.queueFull q
      else
        match (if q.indirect = true ∧ inputs.length + outputs.length > 1 then
                addIndirect q inputs outputs
              else addDirect q inputs outputs) with
        | none => AddResult.panic
        | some (q1, head) =>
          AddResult.ok head
            { q1 with avail_ring := q1.avail_ring.set (q1.avail_idx &&& (SIZE - 1)) head,
                      avail_idx := (q1.avail_idx + 1) % 65536 }) := rfl

theorem popUsed_eq {SIZE : Nat} (q : VQ SIZE) (used : UsedRingMem) (token : Nat)
    (inputs outputs : List Buffer) :
    q.popUsed used token inputs outputs =
      (if q.canPop used = false then PopResult.err VError.notReady q
      else if (used.ring.getD (q.last_used_idx &&& (SIZE - 1)) (0, 0)).1 % 65536 ≠ token then
        PopResult.err VError.wrongToken q
      else
        match recycle q ((used.ring.getD (q.last_used_idx &&& (SIZE - 1)) (0, 0)).1 % 65536)
            inputs outputs with
        | none => PopResult.panic
        | some q1 =>
          PopResult.ok (used.ring.getD (q.last_used_idx &&& (SIZE - 1)) (0, 0)).2
            (if ({ q1 with last_used_idx := (q1.last_used_idx + 1) % 65536 } : VQ SIZE).event_idx
             then { q1 with last_used_idx := (q1.last_used_idx + 1) % 65536,
                            avail_used_event := (q1.last_used_idx + 1) % 65536 }
             else { q1 with last_used_idx := (q1.last_used_idx + 1) % 65536 })) := rfl

/-- Claim C1: for every driver-side VirtQueue, if VIRTIO_F_EVENT_IDX was
negotiated, should_notify() returns true iff avail_idx is at least
avail_event + 1 where the + 1 wraps as a 16-bit value (avail_event being the
value read from the used ring), and should_notify is then monotone in
avail_idx for a fixed avail_event; if EVENT_IDX was not negotiated,
should_notify() returns true iff bit 0 of the used ring flags is clear. -/
theorem c1_should_notify {SIZE : Nat} (q : VQ SIZE) (used : UsedRingMem) (a1 a2 : Nat) :
    (q.event_idx = true →
      (q.shouldNotify used = true ↔ (used.avail_event + 1) % 65536 ≤ q.avail_idx)) ∧
    (q.event_idx = false →
      (q.shouldNotify used = true ↔ used.flags % 2 = 0)) ∧
    (q.event_idx = true → a1 ≤ a2 →
      ({ q with avail_idx := a1 } : VQ SIZE).shouldNotify used = true →
      ({ q with avail_idx := a2 } : VQ SIZE).shouldNotify used = true) := by
  refine ⟨fun h => ?_, fun h => ?_, fun h hle h1 => ?_⟩
  · simp [VQ.shouldNotify, h]
  · simp [VQ.shouldNotify, h, Nat.and_one_is_mod]
  · simp only [VQ.shouldNotify, h, if_pos] at h1 ⊢
    simp only [decide_eq_true_eq] at h1 ⊢
    omega

/-- Witness for c1_should_notify at a concrete queue and used ring. -/
theorem c1_should_notify_witness :
    ({ newVQ 4 true false with avail_idx := 9 } : VQ 4).shouldNotify
      { flags := 0, idx := 0, ring := [], avail_event := 7 } = true :=
  ((c1_should_notify ({ newVQ 4 true false with avail_idx := 9 } : VQ 4)
      { flags := 0, idx := 0, ring := [], avail_event := 7 } 0 0).1 rfl).mpr (by decide)

/-- Claim C10: when event_idx is true, VirtQueue::set_dev_notify is a no-op
for either value of enable: it does not write the available ring flags and
leaves the whole queue state unchanged. -/
theorem c10_set_dev_notify_noop {SIZE : Nat} (q : VQ SIZE) (enable : Bool)
    (h : q.event_idx = true) : q.setDevNotify enable = q := by
  simp [VQ.setDevNotify, h]

/-- Witness for c10_set_dev_notify_noop at a concrete queue. -/
theorem c10_set_dev_notify_noop_witness :
    (newVQ 4 true false).setDevNotify false = newVQ 4 true false :=
  c10_set_dev_notify_noop (newVQ 4 true false) false rfl

/-- Claim C6: pop_used returns NotReady exactly when there is no pending
used element (last_used_idx equals the used ring idx); returns WrongToken
exactly when it can pop but the id found at used.ring[last_used_idx mod
SIZE] (a u32 truncated to u16) differs from the token; and on either error
the queue state is returned unchanged. -/
theorem c6_pop_used_errors {SIZE : Nat} (q : VQ SIZE) (used : UsedRingMem) (token : Nat)
    (inputs outputs : List Buffer) :
    ((∃ q', q.popUsed used token inputs outputs = PopResult.err VError.notReady q') ↔
      q.last_used_idx = used.idx) ∧
    ((∃ q', q.popUsed used token inputs outputs = PopResult.err VError.wrongToken q') ↔
      (q.last_used_idx ≠ used.idx ∧
        (used.ring.getD (q.last_used_idx &&& (SIZE - 1)) (0, 0)).1 % 65536 ≠ token)) ∧
    (∀ e q', q.popUsed used token inputs outputs = PopResult.err e q' → q' = q) := by
  have hcan : q.canPop used = false ↔ q.last_used_idx = used.idx := by
    simp [VQ.canPop]
  rw [popUsed_eq]
  by_cases h1 : q.canPop used = false
  · rw [if_pos h1]
    refine ⟨⟨fun _ => hcan.mp h1, fun _ => ⟨q, rfl⟩⟩, ⟨?_, ?_⟩, ?_⟩
    · rintro ⟨q', hq⟩
      cases hq
    · rintro ⟨hne, _⟩
      exact absurd (hcan.mp h1) hne
    · rintro e q' hq
      cases hq
      rfl
  · rw [if_neg h1]
    have hne : q.last_used_idx ≠ used.idx := fun hx => h1 (hcan.mpr hx)
    by_cases h2 : (used.ring.getD (q.last_used_idx &&& (SIZE - 1)) (0, 0)).1 % 65536 ≠ token
    · rw [if_pos h2]
      refine ⟨⟨?_, ?_⟩, ⟨fun _ => ⟨hne, h2⟩, fun _ => ⟨q, rfl⟩⟩, ?_⟩
      · rintro ⟨q', hq⟩
        cases hq
      · intro hx
        exact absurd hx (fun hx2 => hne hx2)
      · rintro e q' hq
        cases hq
        rfl
    · rw [if_neg h2]
      cases hrec : recycle q
          ((used.ring.getD (q.last_used_idx &&& (SIZE - 1)) (0, 0)).1 % 65536) inputs outputs with
      | none =>
        refine ⟨⟨?_, ?_⟩, ⟨?_, ?_⟩, ?_⟩
        · rintro ⟨q', hq⟩
          cases hq
        · intro hx
          exact absurd (hcan.mpr hx) h1
        · rintro ⟨q', hq⟩
          cases hq
        · rintro ⟨_, hx⟩
          exact absurd hx h2
        · rintro e q' hq
          cases hq
      | some q1 =>
        refine ⟨⟨?_, ?_⟩, ⟨?_, ?_⟩, ?_⟩
        · rintro ⟨q', hq⟩
          cases hq
        · intro hx
          exact absurd (hcan.mpr hx) h1
        · rintro ⟨q', hq⟩
          cases hq
        · rintro ⟨_, hx⟩
          exact absurd hx h2
        · rintro e q' hq
          cases hq

/-- Witness for c6_pop_used_errors: a fresh queue with an empty used ring
yields NotReady and is unchanged. -/
theorem c6_pop_used_errors_witness :
    ∃ q', (newVQ 4 false false).popUsed { flags := 0, idx := 0, ring := [], avail_event := 0 }
      0 [] [] = PopResult.err VError.notReady q' :=
  (c6_pop_used_errors (newVQ 4 false false)
    { flags := 0, idx := 0, ring := [], avail_event := 0 } 0 [] []).1.mpr rfl

/-- Claim C3: VirtQueue::add error contract. An empty call (inputs and
outputs both empty) returns InvalidParam; with the INDIRECT feature off and
a nonempty call, it returns QueueFull exactly when num_used + chain_len
exceeds SIZE; with INDIRECT on and chain_len > 1 it returns an error exactly
when the direct table is full (num_used + 1 > SIZE) or chain_len > SIZE. -/
theorem c3_add_errors {SIZE : Nat} (q : VQ SIZE) (inputs outputs : List Buffer) :
    (inputs = [] ∧ outputs = [] →
      q.add inputs outputs = AddResult.err VError.invalidParam q) ∧
    (q.indirect = false → ¬(inputs = [] ∧ outputs = []) →
      ((∃ q', q.add inputs outputs = AddResult.err VError.queueFull q') ↔
        q.num_used + (inputs.length + outputs.length) > SIZE)) ∧
    (q.indirect = true → inputs.length + outputs.length > 1 →
      ((∃ e q', q.add inputs outputs = AddResult.err e q') ↔
        (q.num_used + 1 > SIZE ∨ inputs.length + outputs.length > SIZE))) := by
  have hemp : (inputs.isEmpty && outputs.isEmpty) = true ↔ inputs = [] ∧ outputs = [] := by
    simp [List.isEmpty_iff]
  refine ⟨fun h => ?_, fun hind hne => ?_, fun hind hlen => ?_⟩
  · rw [add_eq, if_pos (hemp.mpr h)]
  · have hpos : 0 < inputs.length + outputs.length := by
      rcases not_and_or.mp hne with h | h
      · have := List.length_pos.mpr h
        omega
      · have := List.length_pos.mpr h
        omega
    rw [add_eq, if_neg (by rw [hemp]; exact hne)]
    by_cases hguard : q.num_used + 1 > SIZE ∨ inputs.length + outputs.length > SIZE ∨
        (¬ q.indirect = true ∧ q.num_used + (inputs.length + outputs.length) > SIZE)
    · rw [if_pos hguard]
      constructor
      · intro _
        rcases hguard with h | h | h
        · omega
        · omega
        · omega
      · intro _
        exact ⟨q, rfl⟩
    · rw [if_neg hguard]
      constructor
      · rintro ⟨q', hq⟩
        cases hx : (if q.indirect = true ∧ inputs.length + outputs.length > 1 then
            addIndirect q inputs outputs else addDirect q inputs outputs) with
        | none =>
          rw [hx] at hq
          cases hq
        | some v =>
          rw [hx] at hq
          cases hq
      · intro hgt
        exact absurd (by rw [hind] at hguard ⊢; simp at hguard ⊢; omega) hguard
  · have hne2 : ¬(inputs.isEmpty && outputs.isEmpty) = true := by
      rw [hemp]
      rintro ⟨h1, h2⟩
      rw [h1, h2] at hlen
      simp at hlen
    rw [add_eq, if_neg hne2]
    by_cases hguard : q.num_used + 1 > SIZE ∨ inputs.length + outputs.length > SIZE ∨
        (¬ q.indirect = true ∧ q.num_used + (inputs.length + outputs.length) > SIZE)
    · rw [if_pos hguard]
      constructor
      · intro _
        rcases hguard with h | h | h
        · exact Or.inl h
        · exact Or.inr h
        · rw [hind] at h
          simp at h
      · intro _
        exact ⟨VError.queueFull, q, rfl⟩
    · rw [if_neg hguard]
      constructor
      · rintro ⟨e, q', hq⟩
        cases hx : (if q.indirect = true ∧ inputs.length + outputs.length > 1 then
            addIndirect q inputs outputs else addDirect q inputs outputs) with
        | none =>
          rw [hx] at hq
          cases hq
        | some v =>
          rw [hx] at hq
          cases hq
      · intro hgt
        refine absurd ?_ hguard
        rcases hgt with h | h
        · exact Or.inl h
        · exact Or.inr (Or.inl h)

/-- Witness for c3_add_errors: an empty add on a fresh queue returns
InvalidParam with the queue unchanged. -/
theorem c3_add_errors_witness :
    (newVQ 4 false false).add [] [] = AddResult.err VError.invalidParam (newVQ 4 false false) :=
  (c3_add_errors (newVQ 4 false false) [] []).1 ⟨rfl, rfl⟩

/-! ## Device-side DeviceVirtQueue::pop_avail (src/queue.rs lines 794-864)

The descriptor table is driver-controlled shared memory, so its contents are
an arbitrary input. The DMA mapping of each buffer (MappedDescriptor::map_buf
and the desc_mapped cache) is taken to succeed, as the spec requires of the
HAL in the hot path; a popped buffer is represented by its (addr, len)
pair. -/

/-- Whether a descriptor describes a device-writable buffer. -/
def isWriteDesc (d : Descriptor) : Bool := hasFlag d.flags WRITE_FLAG

/-- The buffer a popped descriptor contributes: its address and length. -/
def descBuf (d : Descriptor) : Nat × Nat := (d.addr, d.len)

/-- Result of the pop_avail chain walk. -/
inductive WalkRes where
  | panic
  | err (e : VError)
  | fuelOut
  | done (reads : List (Nat × Nat)) (writes : List (Nat × Nat))
deriving DecidableEq, Repr

/-- Model of the chain-walking loop of DeviceVirtQueue::pop_avail.
read_desc yields WrongToken for an index outside the table; a descriptor
carrying INDIRECT trips an assert (panic); a device-readable buffer found
after any device-writable one returns InvalidDescriptor. fuelOut stands for
a walk longer than the given fuel (the Rust loop just keeps following next
pointers). -/
def popAvailGo (descs : List Descriptor) :
    Nat → Option Nat → List (Nat × Nat) → List (Nat × Nat) → WalkRes
  | _, none, reads, writes => WalkRes.done reads writes
  | 0, some _, _, _ => WalkRes.fuelOut
  | fuel + 1, some token, reads, writes =>
    match descs[token]? with
    | none => WalkRes.err VError.wrongToken
    | some d =>
      if hasFlag d.flags INDIRECT_FLAG then WalkRes.panic
      else
        let next1 : Option Nat := if hasFlag d.flags NEXT_FLAG then some d.next else none
        if isWriteDesc d then popAvailGo descs fuel next1 reads (writes ++ [descBuf d])
        else if writes.isEmpty = false then WalkRes.err VError.invalidDescriptor
        else popAvailGo descs fuel next1 (reads ++ [descBuf d]) writes

/-- The descriptors a chain walk visits, in order. -/
def chainWalk (descs : List Descriptor) : Nat → Option Nat → Option (List Descriptor)
  | _, none => some []
  | 0, some _ => none
  | fuel + 1, some token =>
    match descs[token]? with
    | none => none
    | some d =>
      match chainWalk descs fuel (if hasFlag d.flags NEXT_FLAG then some d.next else none) with
      | none => none
      | some ds => some (d :: ds)

/-- All device-readable descriptors precede all device-writable ones. -/
def sortedRW : List Descriptor → Bool
  | [] => true
  | d :: rest =>
    if isWriteDesc d then rest.all (fun x => isWriteDesc x) else sortedRW rest

/-- Result of DeviceVirtQueue::pop_avail. -/
inductive PopAvailRes where
  | panic
  | err (e : VError)
  | fuelOut
  | emptyRing
  | popped (reads writes : List (Nat × Nat)) (head : Nat) (newAvailIdx : Nat)
deriving DecidableEq, Repr

/-- Model of DeviceVirtQueue::pop_avail: peek the head token from the
driver-written available ring, walk the chain, and on success bump the
trusted avail_idx (u16). ringIdx is the idx field read from the available
ring memory. -/
def popAvailD (SIZE : Nat) (descs : List Descriptor) (availIdx ringIdx : Nat)
    (availRing : List Nat) (fuel : Nat) : PopAvailRes :=
  if availIdx == ringIdx then PopAvailRes.emptyRing
  else
    let head := availRing.getD (availIdx &&& (SIZE - 1)) 0
    match popAvailGo descs fuel (some head) [] [] with
    | WalkRes.done reads writes => PopAvailRes.popped reads writes head ((availIdx + 1) % 65536)
    | WalkRes.err e => PopAvailRes.err e
    | WalkRes.panic => PopAvailRes.panic
    | WalkRes.fuelOut => PopAvailRes.fuelOut

theorem popAvailGo_done_sorted (descs : List Descriptor) : ∀ (fuel : Nat) (nt : Option Nat)
    (reads writes rr ww : List (Nat × Nat)),
    popAvailGo descs fuel nt reads writes = WalkRes.done rr ww →
    ∃ visited, chainWalk descs fuel nt = some visited ∧
      (∀ d ∈ visited, hasFlag d.flags INDIRECT_FLAG = false) ∧
      rr = reads ++ (visited.filter (fun d => !isWriteDesc d)).map descBuf ∧
      ww = writes ++ (visited.filter (fun d => isWriteDesc d)).map descBuf ∧
      (writes = [] → sortedRW visited = true) ∧
      (writes ≠ [] → visited.all (fun d => isWriteDesc d) = true) := by
  intro fuel
  induction fuel with
  | zero =>
    intro nt reads writes rr ww h
    cases nt with
    | none =>
      cases h
      exact ⟨[], rfl, by simp, by simp, by simp, fun _ => rfl, fun _ => rfl⟩
    | some token => cases h
  | succ fuel ih =>
    intro nt reads writes rr ww h
    cases nt with
    | none =>
      cases h
      exact ⟨[], rfl, by simp, by simp, by simp, fun _ => rfl, fun _ => rfl⟩
    | some token =>
      simp only [popAvailGo] at h
      cases hd : descs[token]? with
      | none =>
        rw [hd] at h
        cases h
      | some d =>
        rw [hd] at h
        simp only [] at h
        split at h
        · cases h
        · rename_i hind
          have hind2 : hasFlag d.flags INDIRECT_FLAG = false := by
            simpa using hind
          split at h
          · rename_i hw
            obtain ⟨v1, hwalk, hnind, hrr, hww, _, hall⟩ := ih _ _ _ _ _ h
            have hall1 : v1.all (fun x => isWriteDesc x) = true := hall (by simp)
            refine ⟨d :: v1, ?_, ?_, ?_, ?_, ?_, ?_⟩
            · simp only [chainWalk, hd]
              rw [hwalk]
            · intro x hx
              rw [List.mem_cons] at hx
              rcases hx with hx | hx
              · rw [hx]
                exact hind2
              · exact hnind x hx
            · rw [hrr]
              simp [List.filter_cons, hw]
            · rw [hww]
              simp [List.filter_cons, hw, descBuf]
            · intro _
              rw [sortedRW, if_pos hw]
              exact hall1
            · intro _
              simpa [List.all_cons, hw] using hall1
          · rename_i hw
            have hw2 : isWriteDesc d = false := by
              simpa using hw
            split at h
            · cases h
            · rename_i hwe
              have hwnil : writes = [] := by
                rcases Bool.eq_false_or_eq_true writes.isEmpty with he | he
                · simpa [List.isEmpty_iff] using he
                · exact absurd he hwe
              obtain ⟨v1, hwalk, hnind, hrr, hww, hsort, _⟩ := ih _ _ _ _ _ h
              refine ⟨d :: v1, ?_, ?_, ?_, ?_, ?_, ?_⟩
              · simp only [chainWalk, hd]
                rw [hwalk]
              · intro x hx
                rw [List.mem_cons] at hx
                rcases hx with hx | hx
                · rw [hx]
                  exact hind2
                · exact hnind x hx
              · rw [hrr]
                simp [List.filter_cons, hw2, descBuf]
              · rw [hww]
                simp [List.filter_cons, hw2]
              · intro _
                rw [sortedRW, if_neg (by simp [hw2])]
                exact hsort hwnil
              · intro hcontra
                exact absurd hwnil hcontra

/-- Claim C9: in every chain walked by DeviceVirtQueue::pop_avail all
device-readable (read) buffers precede all device-writable (write) buffers:
encountering a read descriptor after any write buffer has been collected
makes the walk, and hence the pop_avail call, return InvalidDescriptor; a
descriptor carrying the INDIRECT flag trips the device-side assert (it is
rejected, modelled as panic); and a successful walk visits read descriptors
first and write descriptors last, none of them INDIRECT, returning exactly
those two groups of buffers in walk order. -/
theorem c9_pop_avail (SIZE : Nat) (descs : List Descriptor) (availIdx ringIdx fuel : Nat)
    (availRing : List Nat) (token : Nat) (reads writes : List (Nat × Nat)) (d : Descriptor)
    (rr ww : List (Nat × Nat)) :
    (descs[token]? = some d → hasFlag d.flags INDIRECT_FLAG = false →
      isWriteDesc d = false → writes ≠ [] →
      popAvailGo descs (fuel + 1) (some token) reads writes =
        WalkRes.err VError.invalidDescriptor) ∧
    (descs[token]? = some d → hasFlag d.flags INDIRECT_FLAG = true →
      popAvailGo descs (fuel + 1) (some token) reads writes = WalkRes.panic) ∧
    (∀ e, popAvailGo descs fuel (some (availRing.getD (availIdx &&& (SIZE - 1)) 0)) [] [] =
        WalkRes.err e → availIdx ≠ ringIdx →
      popAvailD SIZE descs availIdx ringIdx availRing fuel = PopAvailRes.err e) ∧
    (popAvailGo descs fuel (some token) [] [] = WalkRes.done rr ww →
      ∃ visited, chainWalk descs fuel (some token) = some visited ∧
        sortedRW visited = true ∧
        (∀ x ∈ visited, hasFlag x.flags INDIRECT_FLAG = false) ∧
        rr = (visited.filter (fun x => !isWriteDesc x)).map descBuf ∧
        ww = (visited.filter (fun x => isWriteDesc x)).map descBuf) := by
  refine ⟨fun hd hind hw hne => ?_, fun hd hind => ?_, fun e hgo hne => ?_, fun hdone => ?_⟩
  · cases writes with
    | nil => exact absurd rfl hne
    | cons w ws =>
      simp only [popAvailGo, hd]
      rw [hind, if_neg Bool.false_ne_true, hw]
      simp [isWriteDesc] at hw
      simp [hw]
  · simp only [popAvailGo, hd]
    rw [hind, if_pos rfl]
  · have hbeq : (availIdx == ringIdx) = false := by
      simpa using hne
    simp only [popAvailD, hbeq]
    rw [if_neg Bool.false_ne_true, hgo]
  · obtain ⟨v, hwalk, hnind, hrr, hww, hsort, _⟩ :=
      popAvailGo_done_sorted descs fuel _ [] [] rr ww hdone
    exact ⟨v, hwalk, hsort rfl, hnind, by simpa using hrr, by simpa using hww⟩

/-- Witness for c9_pop_avail: a read descriptor reached while a write buffer
is already collected yields InvalidDescriptor. -/
theorem c9_pop_avail_witness :
    popAvailGo [{ addr := 0, len := 1, flags := 0, next := 0 }] 1 (some 0) []
      [(7, 7)] = WalkRes.err VError.invalidDescriptor :=
  (c9_pop_avail 4 [{ addr := 0, len := 1, flags := 0, next := 0 }] 0 0 0 [] 0 []
    [(7, 7)] { addr := 0, len := 1, flags := 0, next := 0 } [] []).1 rfl rfl rfl (by simp)

/-! ## Vsock connection manager (src/device/socket/connectionmanager.rs)

The lower-level vsock transport (VirtIOSocket, in vsock.rs) is not under
src/: only the manager is. Its event and connection-info records and their
operations, and the behaviour of driver.poll, are modelled from the spec as
noted on each definition; the manager logic itself is a direct translation
of VsockConnectionManagerCommon. Driver transmit calls (accept, force_close,
credit_update) are recorded in a trace and, per the spec transport contract,
succeed. -/

structure VsockAddr where
  cid : Nat
  port : Nat
deriving DecidableEq, Repr

inductive DisconnectReason where
  | shutdown
  | reset
deriving DecidableEq, Repr

inductive VsockEventType where
  | connectionRequest
  | connected
  | disconnected (reason : DisconnectReason)
  | received (length : Nat)
  | creditRequest
  | creditUpdate
deriving DecidableEq, Repr

structure VsockBufferStatus where
  buffer_allocation : Nat
  forward_count : Nat
deriving DecidableEq, Repr

/-- Modelled from the spec: VsockEvent, the record the manager receives and
surfaces: {source, destination, event_type, buffer_status}. -/
structure VsockEvent where
  source : VsockAddr
  destination : VsockAddr
  event_type : VsockEventType
  buffer_status : VsockBufferStatus
deriving DecidableEq, Repr

/-- Modelled from the spec: ConnectionInfo (vsock.rs is not under src/)
holds the peer address (dst), the local port (src_port), our advertised
buf_alloc, the peer credit fields, and our fwd_cnt counter. -/
structure ConnectionInfo where
  dst : VsockAddr
  src_port : Nat
  buf_alloc : Nat
  peer_buf_alloc : Nat
  peer_fwd_cnt : Nat
  fwd_cnt : Nat
deriving DecidableEq, Repr

/-- Modelled from the spec: ConnectionInfo::new(peer, local_port). -/
def ConnectionInfo.new (peer : VsockAddr) (local_port : Nat) : ConnectionInfo :=
  { dst := peer, src_port := local_port, buf_alloc := 0, peer_buf_alloc := 0,
    peer_fwd_cnt := 0, fwd_cnt := 0 }

/-- Modelled from the spec: matches_connection compares the event's peer
address and local port with the connection, and for non-request events also
requires the event's local cid to be ours. -/
def VsockEvent.matchesConnection (e : VsockEvent) (info : ConnectionInfo)
    (local_cid : Nat) : Bool :=
  e.source == info.dst && e.destination.port == info.src_port &&
    (match e.event_type with
     | VsockEventType.connectionRequest => true
     | _ => e.destination.cid == local_cid)

/-- Modelled from the spec: update_for_event refreshes the stored peer
credit fields from the event's buffer status. -/
def ConnectionInfo.updateForEvent (info : ConnectionInfo) (e : VsockEvent) : ConnectionInfo :=
  { info with peer_buf_alloc := e.buffer_status.buffer_allocation,
              peer_fwd_cnt := e.buffer_status.forward_count }

/-- Modelled from the spec: done_forwarding(n) adds the newly read byte
count to our fwd_cnt, a u32. -/
def ConnectionInfo.doneForwarding (info : ConnectionInfo) (n : Nat) : ConnectionInfo :=
  { info with fwd_cnt := (info.fwd_cnt + n) % 4294967296 }

/-- Connection entry of the manager (src lines 107-126). -/
structure Connection where
  info : ConnectionInfo
  buffer : RingBuffer
  peer_requested_shutdown : Bool
deriving DecidableEq, Repr

/-- Model of Connection::new. -/
def Connection.new (peer : VsockAddr) (local_port : Nat) (buffer_capacity : Nat) : Connection :=
  { info := { ConnectionInfo.new peer local_port with buf_alloc := buffer_capacity }
    buffer := RingBuffer.new buffer_capacity
    peer_requested_shutdown := false }

/-- A transmit-side call the manager makes on the lower-level driver. -/
inductive DriverOp where
  | accept (info : ConnectionInfo)
  | forceClose (info : ConnectionInfo)
  | creditUpdate (info : ConnectionInfo)
deriving DecidableEq, Repr

/-- State of VsockConnectionManagerCommon. -/
structure CMState where
  connections : List Connection
  listening_ports : List Nat
  per_connection_buffer_capacity : Nat
deriving DecidableEq, Repr

/-- Model of Vec::swap_remove (every call site passes a valid index). -/
def swapRemove {α : Type} (l : List α) (i : Nat) : List α :=
  match l.getLast? with
  | none => l
  | some lastElem => (l.set i lastElem).dropLast

/-- The default connection used to state list lookups; never observed, since
all getD calls are at indices findIdx? certified in range. -/
def dfltConn : Connection := Connection.new { cid := 0, port := 0 } 0 0

/-- The part of the poll callback that runs once the event's connection (at
index i) is known: update_for_event, and for Received copy the body into
the connection's RingBuffer, failing the callback with OutputBufferTooShort
if it does not fit. none models a Rust panic. -/
def pollCallbackCore (event : VsockEvent) (body : List Nat) (connections : List Connection)
    (i : Nat) : Option (Except VError (Option VsockEvent) × List Connection) :=
  let conn := connections.getD i dfltConn
  let conn1 : Connection := { conn with info := conn.info.updateForEvent event }
  match event.event_type with
  | VsockEventType.received length =>
    match conn1.buffer.add body with
    | none => none
    | some (ok, rb1) =>
      if ok then some (Except.ok (some event), connections.set i { conn1 with buffer := rb1 })
      else some (Except.error (VError.outputBufferTooShort length), connections.set i conn1)
  | _ => some (Except.ok (some event), connections.set i conn1)

/-- The callback the manager passes to driver.poll (src lines 395-430):
match the event to a connection; an unmatched ConnectionRequest for our cid
provisionally appends a new connection; other unmatched events are
dropped. -/
def pollCallback (local_cid per_cap : Nat) (connections : List Connection)
    (event : VsockEvent) (body : List Nat) :
    Option (Except VError (Option VsockEvent) × List Connection) :=
  match connections.findIdx? (fun c => event.matchesConnection c.info local_cid) with
  | some i => pollCallbackCore event body connections i
  | none =>
    match event.event_type with
    | VsockEventType.connectionRequest =>
      if event.destination.cid != local_cid then some (Except.ok none, connections)
      else
        pollCallbackCore event body
          (connections ++ [Connection.new event.source event.destination.port per_cap])
          connections.length
    | _ => some (Except.ok none, connections)

/-- Model of VsockConnectionManagerCommon::poll (src lines 390-478). The
driver.poll wrapper is modelled from the spec: it yields at most one event
together with its body and propagates the callback result. -/
def CM.poll (local_cid : Nat) (cm : CMState) (incoming : Option (VsockEvent × List Nat)) :
    Option (Except VError (Option VsockEvent) × CMState × List DriverOp) :=
  match incoming with
  | none => some (Except.ok none, cm, [])
  | some (event, body) =>
    match pollCallback local_cid cm.per_connection_buffer_capacity cm.connections event body with
    | none => none
    | some (Except.error e, conns2) =>
      some (Except.error e, { cm with connections := conns2 }, [])
    | some (Except.ok none, conns2) =>
      some (Except.ok none, { cm with connections := conns2 }, [])
    | some (Except.ok (some ev), conns2) =>
      match conns2.findIdx? (fun c => ev.matchesConnection c.info local_cid) with
      | none => none
      | some ci =>
        let conn := conns2.getD ci dfltConn
        match ev.event_type with
        | VsockEventType.connectionRequest =>
          if cm.listening_ports.contains ev.destination.port then
            some (Except.ok (some ev), { cm with connections := conns2 },
              [DriverOp.accept conn.info])
          else
            some (Except.ok none, { cm with connections := swapRemove conns2 ci },
              [DriverOp.forceClose conn.info])
        | VsockEventType.connected =>
          some (Except.ok (some ev), { cm with connections := conns2 }, [])
        | VsockEventType.disconnected reason =>
          if conn.buffer.isEmpty then
            some (Except.ok (some ev), { cm with connections := swapRemove conns2 ci },
              if reason == DisconnectReason.shutdown then [DriverOp.forceClose conn.info]
              else [])
          else
            some (Except.ok (some ev),
              { cm with connections :=
                  conns2.set ci { conn with peer_requested_shutdown := true } }, [])
        | VsockEventType.received _ =>
          some (Except.ok (some ev), { cm with connections := conns2 }, [])
        | VsockEventType.creditRequest =>
          some (Except.ok none, { cm with connections := conns2 },
            [DriverOp.creditUpdate conn.info])
        | VsockEventType.creditUpdate =>
          some (Except.ok (some ev), { cm with connections := conns2 }, [])

/-- Model of VsockConnectionManagerCommon::recv (src lines 481-497). none
models a Rust panic (the zero-capacity drain); otherwise the returned byte
count, the bytes copied out, the new state, and the trace of driver calls. -/
def CM.recv (cm : CMState) (peer : VsockAddr) (src_port outLen : Nat) :
    Option (Except VError (Nat × List Nat) × CMState × List DriverOp) :=
  match cm.connections.findIdx?
      (fun c => c.info.dst == peer && c.info.src_port == src_port) with
  | none => some (Except.error VError.notConnected, cm, [])
  | some i =>
    let conn := cm.connections.getD i dfltConn
    match conn.buffer.drain outLen with
    | none => none
    | some (out, rb1) =>
      let bytes_read := out.length
      let conn1 : Connection :=
        { conn with buffer := rb1, info := conn.info.doneForwarding bytes_read }
      if conn1.peer_requested_shutdown && conn1.buffer.isEmpty then
        some (Except.ok (bytes_read, out),
          { cm with connections := swapRemove (cm.connections.set i conn1) i },
          [DriverOp.forceClose conn1.info])
      else
        some (Except.ok (bytes_read, out),
          { cm with connections := cm.connections.set i conn1 }, [])

theorem findIdx?_append_last {α : Type} (p : α → Bool) :
    ∀ (l : List α) (x : α) (i : Nat), (∀ a ∈ l, p a = false) → p x = true →
    List.findIdx? p (l ++ [x]) i = some (i + l.length) := by
  intro l
  induction l with
  | nil =>
    intro x i _ hx
    simp [List.findIdx?_cons, hx]
  | cons a as ih =>
    intro x i hall hx
    rw [List.cons_append, List.findIdx?_cons, if_neg (by simp [hall a (by simp)])]
    rw [ih x (i + 1) (fun b hb => hall b (by simp [hb])) hx]
    congr 1
    simp
    omega

theorem set_append_last {α : Type} (l : List α) (x y : α) :
    (l ++ [x]).set l.length y = l ++ [y] := by
  induction l with
  | nil => rfl
  | cons a as ih =>
    simp only [List.cons_append, List.length_cons, List.set_cons_succ]
    rw [ih]

theorem getD_append_last {α : Type} (l : List α) (x d : α) :
    (l ++ [x]).getD l.length d = x := by
  simp [List.getD_eq_getElem?_getD, List.getElem?_concat_length]

theorem swapRemove_append_last {α : Type} (l : List α) (x : α) :
    swapRemove (l ++ [x]) l.length = l := by
  unfold swapRemove
  rw [List.getLast?_concat]
  show ((l ++ [x]).set l.length x).dropLast = l
  rw [set_append_last, List.dropLast_concat]

/-- Claim C4, counterexample. A ConnectionRequest whose destination cid is
the local cid (66) and whose destination port (4444) is not in
listening_ports, but which matches an existing connection (as one created
by an outbound connect from local port 4444 to the same peer), makes poll
send force_close and REMOVE that existing connection: poll returns Ok(None)
but the connections list does not stay unchanged. -/
theorem c4_poll_counterexample :
    CM.poll 66 { connections := [Connection.new { cid := 2, port := 1234 } 4444 4],
                 listening_ports := [], per_connection_buffer_capacity := 4 }
      (some ({ source := { cid := 2, port := 1234 },
               destination := { cid := 66, port := 4444 },
               event_type := VsockEventType.connectionRequest,
               buffer_status := { buffer_allocation := 50, forward_count := 0 } }, [])) =
      some (Except.ok none, { connections := [], listening_ports := [],
                              per_connection_buffer_capacity := 4 },
        [DriverOp.forceClose { dst := { cid := 2, port := 1234 }, src_port := 4444,
                               buf_alloc := 4, peer_buf_alloc := 50, peer_fwd_cnt := 0,
                               fwd_cnt := 0 }]) ∧
      [Connection.new { cid := 2, port := 1234 } 4444 4] ≠ ([] : List Connection) := by
  constructor
  · rfl
  · decide

/-- Claim C4 (amended: and no existing connection matches the request). For
every poll processing a ConnectionRequest whose destination cid equals the
local cid, whose destination port is not in listening_ports, and which
matches no existing connection: the manager sends a force_close (RST) to
the peer, poll returns Ok(None), and the connection list after poll returns
is unchanged. -/
theorem c4_poll_rejects_unlistened (local_cid : Nat) (cm : CMState) (ev : VsockEvent)
    (body : List Nat)
    (hev : ev.event_type = VsockEventType.connectionRequest)
    (hcid : ev.destination.cid = local_cid)
    (hport : cm.listening_ports.contains ev.destination.port = false)
    (hnomatch : ∀ c ∈ cm.connections, ev.matchesConnection c.info local_cid = false) :
    ∃ info, CM.poll local_cid cm (some (ev, body)) =
      some (Except.ok none, cm, [DriverOp.forceClose info]) := by
  have hfind : cm.connections.findIdx?
      (fun c => ev.matchesConnection c.info local_cid) = none :=
    List.findIdx?_eq_none_iff.mpr hnomatch
  set newC : Connection := Connection.new ev.source ev.destination.port
    cm.per_connection_buffer_capacity with hnewC
  set conn1 : Connection := { newC with info := newC.info.updateForEvent ev } with hconn1
  have hcb : pollCallback local_cid cm.per_connection_buffer_capacity cm.connections ev body =
      some (Except.ok (some ev), cm.connections ++ [conn1]) := by
    simp only [pollCallback, hfind, hev, pollCallbackCore, hcid, bne_self_eq_false,
      Bool.false_eq_true, if_false, getD_append_last, set_append_last]
  have hmatch1 : ev.matchesConnection conn1.info local_cid = true := by
    simp [hconn1, hnewC, VsockEvent.matchesConnection, ConnectionInfo.updateForEvent,
      Connection.new, ConnectionInfo.new, hev]
  have hfind2 : (cm.connections ++ [conn1]).findIdx?
      (fun c => ev.matchesConnection c.info local_cid) = some cm.connections.length := by
    have h := findIdx?_append_last (fun c => ev.matchesConnection c.info local_cid)
      cm.connections conn1 0 hnomatch hmatch1
    simpa using h
  refine ⟨conn1.info, ?_⟩
  simp only [CM.poll, hcb, hfind2, getD_append_last, hev, hport, Bool.false_eq_true,
    if_false, swapRemove_append_last]

/-- Witness for c4_poll_rejects_unlistened: empty manager, request to an
unlistened port is rejected with a RST and no state change. -/
theorem c4_poll_rejects_unlistened_witness :
    ∃ info, CM.poll 66 { connections := [], listening_ports := [],
                         per_connection_buffer_capacity := 4 }
      (some ({ source := { cid := 2, port := 1234 },
               destination := { cid := 66, port := 4444 },
               event_type := VsockEventType.connectionRequest,
               buffer_status := { buffer_allocation := 50, forward_count := 0 } }, [])) =
      some (Except.ok none, { connections := [], listening_ports := [],
                              per_connection_buffer_capacity := 4 },
        [DriverOp.forceClose info]) :=
  c4_poll_rejects_unlistened 66
    { connections := [], listening_ports := [], per_connection_buffer_capacity := 4 }
    { source := { cid := 2, port := 1234 }, destination := { cid := 66, port := 4444 },
      event_type := VsockEventType.connectionRequest,
      buffer_status := { buffer_allocation := 50, forward_count := 0 } }
    [] rfl rfl rfl (by simp)

/-- Claim C8: recv(peer, src_port, out) returns NotConnected (with no state
change and nothing transmitted) when no connection matches; otherwise it
drains min(used, out.len()) bytes, namely the oldest buffered bytes in
order, adds the drained count to the connection's fwd_cnt (u32), returns
that count, and exactly when peer_requested_shutdown is set and the ring is
empty after the drain it sends a force_close (RST) and removes the
connection, the ring being empty after the drain iff used ≤ out.len(). -/
theorem c8_recv (cm : CMState) (peer : VsockAddr) (src_port outLen i : Nat) :
    (cm.connections.findIdx?
        (fun c => c.info.dst == peer && c.info.src_port == src_port) = none →
      CM.recv cm peer src_port outLen = some (Except.error VError.notConnected, cm, [])) ∧
    (cm.connections.findIdx?
        (fun c => c.info.dst == peer && c.info.src_port == src_port) = some i →
      ∀ conn : Connection, cm.connections.getD i dfltConn = conn →
      conn.buffer.WF → 0 < conn.buffer.buffer.length →
      ∃ rb1, conn.buffer.drain outLen =
          some (conn.buffer.contents.take (min conn.buffer.used outLen), rb1) ∧
        (conn.buffer.contents.take (min conn.buffer.used outLen)).length =
          min conn.buffer.used outLen ∧
        rb1.contents = conn.buffer.contents.drop (min conn.buffer.used outLen) ∧
        (rb1.isEmpty = true ↔ conn.buffer.used ≤ outLen) ∧
        (∀ conn1 : Connection,
          conn1 = { conn with buffer := rb1,
                              info := conn.info.doneForwarding (min conn.buffer.used outLen) } →
          conn1.info.fwd_cnt = (conn.info.fwd_cnt + min conn.buffer.used outLen) % 4294967296 ∧
          CM.recv cm peer src_port outLen =
            (if conn1.peer_requested_shutdown && conn1.buffer.isEmpty then
              some (Except.ok (min conn.buffer.used outLen,
                  conn.buffer.contents.take (min conn.buffer.used outLen)),
                { cm with connections := swapRemove (cm.connections.set i conn1) i },
                [DriverOp.forceClose conn1.info])
            else
              some (Except.ok (min conn.buffer.used outLen,
                  conn.buffer.contents.take (min conn.buffer.used outLen)),
                { cm with connections := cm.connections.set i conn1 }, [])))) := by
  constructor
  · intro hfind
    simp only [CM.recv, hfind]
  · intro hfind conn hconn hwf hcap
    obtain ⟨rb1, hdrain, hwf1, hbuf1, hused1, hcon1⟩ := conn.buffer.drain_ok outLen hwf hcap
    have hlen : (conn.buffer.contents.take (min conn.buffer.used outLen)).length =
        min conn.buffer.used outLen := by
      rw [List.length_take, RingBuffer.contents_length conn.buffer hwf]
      omega
    refine ⟨rb1, hdrain, hlen, hcon1, ?_, ?_⟩
    · rw [RingBuffer.isEmpty, hused1]
      constructor
      · intro h
        have := of_decide_eq_true (by simpa using h)
        omega
      · intro h
        simp
        omega
    · intro conn1 hconn1
      constructor
      · rw [hconn1]
        rfl
      · simp only [CM.recv, hfind, hconn, hdrain, hlen, hconn1]

/-- Witness for c8_recv: recv on a manager with no connections returns
NotConnected and changes nothing. -/
theorem c8_recv_witness :
    CM.recv { connections := [], listening_ports := [], per_connection_buffer_capacity := 4 }
      { cid := 2, port := 1234 } 4321 8 =
      some (Except.error VError.notConnected,
        { connections := [], listening_ports := [], per_connection_buffer_capacity := 4 },
        []) :=
  (c8_recv { connections := [], listening_ports := [], per_connection_buffer_capacity := 4 }
    { cid := 2, port := 1234 } 4321 8 0).1 rfl

/-! ## The free-list invariant of the driver queue (claims C5 and C7) -/

theorem getD_set_self {α : Type} (l : List α) (i : Nat) (a d : α) (h : i < l.length) :
    (l.set i a).getD i d = a := by
  rw [List.getD_eq_getElem?_getD, List.getElem?_set_self h]
  rfl

theorem getD_set_ne {α : Type} (l : List α) (i j : Nat) (a d : α) (h : i ≠ j) :
    (l.set i a).getD j d = l.getD j d := by
  rw [List.getD_eq_getElem?_getD, List.getElem?_set_ne h, ← List.getD_eq_getElem?_getD]

/-- The free list threaded through the shadow table from head h: each entry
equals the current head, is in range, and hands over to its next field. -/
def threadedB (shadow : List Descriptor) : Nat → List Nat → Bool
  | _, [] => true
  | h, x :: xs =>
    x == h && decide (x < shadow.length) &&
      threadedB shadow (shadow.getD x default).next xs

/-- The head reached after traversing the listed slots by next fields. -/
def walkEnd (shadow : List Descriptor) : Nat → List Nat → Nat
  | h, [] => h
  | _, x :: xs => walkEnd shadow (shadow.getD x default).next xs

theorem threadedB_congr (shadow shadow' : List Descriptor)
    (hlen : shadow'.length = shadow.length) :
    ∀ (l : List Nat) (h : Nat),
    (∀ x ∈ l, (shadow'.getD x default).next = (shadow.getD x default).next) →
    threadedB shadow' h l = threadedB shadow h l := by
  intro l
  induction l with
  | nil => intro h _; rfl
  | cons x xs ih =>
    intro h hx
    simp only [threadedB, hlen]
    rw [hx x (by simp), ih _ (fun y hy => hx y (by simp [hy]))]

theorem walkEnd_congr (shadow shadow' : List Descriptor) :
    ∀ (l : List Nat) (h : Nat),
    (∀ x ∈ l, (shadow'.getD x default).next = (shadow.getD x default).next) →
    walkEnd shadow' h l = walkEnd shadow h l := by
  intro l
  induction l with
  | nil => intro h _; rfl
  | cons x xs ih =>
    intro h hx
    simp only [walkEnd]
    rw [hx x (by simp), ih _ (fun y hy => hx y (by simp [hy]))]

theorem threadedB_append_split (shadow : List Descriptor) :
    ∀ (l1 l2 : List Nat) (h : Nat),
    threadedB shadow h (l1 ++ l2) = true →
    threadedB shadow h l1 = true ∧ threadedB shadow (walkEnd shadow h l1) l2 = true := by
  intro l1
  induction l1 with
  | nil =>
    intro l2 h hth
    exact ⟨rfl, hth⟩
  | cons x xs ih =>
    intro l2 h hth
    simp only [List.cons_append, threadedB, Bool.and_eq_true] at hth
    obtain ⟨⟨hxh, hxlt⟩, hrest⟩ := hth
    obtain ⟨h1, h2⟩ := ih l2 _ hrest
    refine ⟨?_, ?_⟩
    · simp only [threadedB, Bool.and_eq_true]
      exact ⟨⟨hxh, hxlt⟩, h1⟩
    · simpa only [walkEnd] using h2

theorem threadedB_mem_lt (shadow : List Descriptor) :
    ∀ (l : List Nat) (h : Nat), threadedB shadow h l = true →
    ∀ x ∈ l, x < shadow.length := by
  intro l
  induction l with
  | nil => intro h _ x hx; cases hx
  | cons a as ih =>
    intro h hth x hx
    simp only [threadedB, Bool.and_eq_true, decide_eq_true_eq] at hth
    rw [List.mem_cons] at hx
    rcases hx with hx | hx
    · rw [hx]
      exact hth.1.2
    · exact ih _ hth.2 x hx

theorem threadedB_head (shadow : List Descriptor) (h x : Nat) (xs : List Nat)
    (hth : threadedB shadow h (x :: xs) = true) :
    x = h ∧ x < shadow.length ∧
      threadedB shadow (shadow.getD x default).next xs = true := by
  simp only [threadedB, Bool.and_eq_true, decide_eq_true_eq, beq_iff_eq] at hth
  exact ⟨hth.1.1, hth.1.2, hth.2⟩

/-- Ghost record of one in-flight chain: a direct chain occupying the
listed slots (one per buffer), or an indirect chain occupying one slot with
the given buffer count. -/
inductive Flight where
  | direct (slots : List Nat)
  | indir (slot : Nat) (count : Nat)
deriving DecidableEq, Repr

def Flight.slots : Flight → List Nat
  | Flight.direct s => s
  | Flight.indir h _ => [h]

def Flight.headSlot : Flight → Nat
  | Flight.direct s => s.headD 0
  | Flight.indir h _ => h

def Flight.count : Flight → Nat
  | Flight.direct s => s.length
  | Flight.indir _ c => c

/-- An in-flight direct chain as recycle_descriptors will walk it: each
descriptor carries NEXT and links to the successor slot; the last has NEXT
clear; all slots are in range. -/
def directChainB (shadow : List Descriptor) : List Nat → Bool
  | [] => false
  | [x] => decide (x < shadow.length) && !hasFlag (shadow.getD x default).flags NEXT_FLAG
  | x :: y :: rest =>
    decide (x < shadow.length) && hasFlag (shadow.getD x default).flags NEXT_FLAG &&
      ((shadow.getD x default).next == y) && directChainB shadow (y :: rest)

/-- Well-formedness of one in-flight chain against the shadow table and the
indirect sidecar list. -/
def flightWFb (shadow : List Descriptor) (ilists : List (Option (List Descriptor))) :
    Flight → Bool
  | Flight.direct s =>
    !s.isEmpty && directChainB shadow s &&
      !hasFlag (shadow.getD (s.headD 0) default).flags INDIRECT_FLAG
  | Flight.indir h c =>
    decide (h < shadow.length) && hasFlag (shadow.getD h default).flags INDIRECT_FLAG &&
      (match ilists.getD h none with
       | some l => l.length == c
       | none => false)

/-- Whether slot j is the slot of an in-flight indirect chain. -/
def isIndirHead (flights : List Flight) (j : Nat) : Bool :=
  flights.any (fun fl => match fl with
    | Flight.indir h _ => h == j
    | Flight.direct _ => false)

/-- The queue invariant of claim C5, with the ghost free list and in-flight
chains explicit: the table lengths are SIZE; num_used plus the free-list
length is SIZE; the free slots and the in-flight slots partition the SIZE
slots; the free list is threaded through the shadow table from free_head;
every in-flight chain is well formed; and the indirect sidecar is populated
only at in-flight indirect heads. -/
def Inv {SIZE : Nat} (q : VQ SIZE) (free : List Nat) (flights : List Flight) : Prop :=
  q.desc_shadow.length = SIZE ∧ q.desc.length = SIZE ∧ q.indirect_lists.length = SIZE ∧
  q.num_used + free.length = SIZE ∧
  (free ++ flights.flatMap Flight.slots).Perm (List.range SIZE) ∧
  threadedB q.desc_shadow q.free_head free = true ∧
  (∀ fl ∈ flights, flightWFb q.desc_shadow q.indirect_lists fl = true) ∧
  (∀ j, (q.indirect_lists.getD j none).isSome = true → isIndirHead flights j = true)

/-- The new queue satisfies the invariant with all SIZE slots free. -/
theorem inv_new (SIZE : Nat) (event_idx indirect : Bool) :
    Inv (newVQ SIZE event_idx indirect) (List.range SIZE) [] := by
  have hlen : (initDescs SIZE).length = SIZE := by
    simp [initDescs]
  have hinit : ∀ i, i < SIZE →
      (initDescs SIZE).getD i default =
        { addr := 0, len := 0, flags := 0, next := if i + 1 < SIZE then i + 1 else 0 } := by
    intro i hi
    rw [List.getD_eq_getElem?_getD]
    simp [initDescs, List.getElem?_map, List.getElem?_range hi]
  refine ⟨hlen, hlen, by simp [newVQ], by simp [newVQ], by simp, ?_, by simp, ?_⟩
  · -- threading of the initial free list
    have hgen : ∀ (n start : Nat), start + n ≤ SIZE →
        threadedB (initDescs SIZE) start (List.range' start n) = true := by
      intro n
      induction n with
      | zero => intro start _; rfl
      | succ m ih =>
        intro start hle
        rw [List.range'_succ]
        simp only [threadedB, Bool.and_eq_true, beq_self_eq_true, decide_eq_true_eq]
        refine ⟨⟨by simp, by omega⟩, ?_⟩
        rw [hinit start (by omega)]
        by_cases hlast : start + 1 < SIZE
        · simp only [if_pos hlast]
          exact ih (start + 1) (by omega)
        · have hm : m = 0 := by omega
          rw [hm]
          rfl
    have hr : List.range SIZE = List.range' 0 SIZE := by
      rw [List.range_eq_range']
    show threadedB (initDescs SIZE) 0 (List.range SIZE) = true
    rw [hr]
    exact hgen SIZE 0 (by omega)
  · intro j hj
    rw [List.getD_eq_getElem?_getD] at hj
    by_cases hlt : j < SIZE
    · simp [newVQ, List.getElem?_replicate, hlt] at hj
    · have hnone : (newVQ SIZE event_idx indirect).indirect_lists[j]? = none := by
        rw [List.getElem?_eq_none]
        simp [newVQ]
        omega
      rw [hnone] at hj
      simp at hj

/-- The flags set_buf writes for a chain element: NEXT, plus WRITE for a
device-writable buffer. -/
def setFlags (dir : Dir) : Nat :=
  if dir == Dir.deviceToDriver then NEXT_FLAG ||| WRITE_FLAG else NEXT_FLAG

theorem setBuf_eq (d : Descriptor) (p l : Nat) (dir : Dir) (h : dir ≠ Dir.both) :
    d.setBuf p l dir NEXT_FLAG =
      some { d with addr := p, len := l, flags := setFlags dir } := by
  cases dir
  · rfl
  · rfl
  · exact absurd rfl h

/-- Descriptor at slot x holds buffer b with the chain-element flags. -/
def descMatch (shadow : List Descriptor) (x : Nat) (b : Buffer) (dir : Dir) : Bool :=
  ((shadow.getD x default).addr == b.paddr) && ((shadow.getD x default).len == b.len) &&
    ((shadow.getD x default).flags == setFlags dir)

/-- The chain as add_direct's loop leaves it (before the final NEXT
removal): every slot holds its buffer with NEXT set, linking to the
successor slot. -/
def chainAllNextB (shadow : List Descriptor) : List Nat → List (Buffer × Dir) → Bool
  | [], [] => true
  | [x], [(b, dir)] => descMatch shadow x b dir
  | x :: y :: xs, (b, dir) :: bs =>
    descMatch shadow x b dir && ((shadow.getD x default).next == y) &&
      chainAllNextB shadow (y :: xs) bs
  | _, _ => false

theorem addDirectGo_spec {SIZE : Nat} :
    ∀ (bs : List (Buffer × Dir)) (pre : List Nat) (q : VQ SIZE) (last0 : Nat),
    q.desc_shadow.length = SIZE → q.desc.length = SIZE →
    threadedB q.desc_shadow q.free_head pre = true →
    pre.length = bs.length → pre.Nodup →
    (∀ b ∈ bs, b.1.len ≠ 0 ∧ b.2 ≠ Dir.both) →
    ∃ q', addDirectGo bs q last0 = some (q', pre.getLastD last0) ∧
      q'.desc_shadow.length = SIZE ∧ q'.desc.length = SIZE ∧
      q'.free_head = walkEnd q.desc_shadow q.free_head pre ∧
      (∀ x, x ∉ pre → q'.desc_shadow.getD x default = q.desc_shadow.getD x default) ∧
      (∀ x, x ∉ pre → q'.desc.getD x default = q.desc.getD x default) ∧
      (∀ x, (q'.desc_shadow.getD x default).next = (q.desc_shadow.getD x default).next) ∧
      chainAllNextB q'.desc_shadow pre bs = true ∧
      (∀ x ∈ pre, q'.desc.getD x default = q'.desc_shadow.getD x default) ∧
      q'.num_used = q.num_used ∧ q'.avail_flags = q.avail_flags ∧
      q'.avail_idx = q.avail_idx ∧ q'.avail_ring = q.avail_ring ∧
      q'.avail_used_event = q.avail_used_event ∧ q'.last_used_idx = q.last_used_idx ∧
      q'.event_idx = q.event_idx ∧ q'.indirect = q.indirect ∧
      q'.indirect_lists = q.indirect_lists := by
  intro bs
  induction bs with
  | nil =>
    intro pre q last0 hs1 hs2 hth hlen hnd hbufs
    have hpre : pre = [] := List.length_eq_zero.mp (by simpa using hlen)
    subst hpre
    exact ⟨q, rfl, hs1, hs2, rfl, fun x _ => rfl, fun x _ => rfl, fun x => rfl, rfl,
      fun x hx => absurd hx (by simp), rfl, rfl, rfl, rfl, rfl, rfl, rfl, rfl, rfl⟩
  | cons bd bs' ih =>
    intro pre q last0 hs1 hs2 hth hlen hnd hbufs
    obtain ⟨b, dir⟩ := bd
    cases pre with
    | nil => simp at hlen
    | cons p0 pre' =>
    obtain ⟨hp0h, hp0lt, hth'⟩ := threadedB_head _ _ _ _ hth
    subst hp0h
    have hb1 : b.len ≠ 0 := (hbufs (b, dir) (by simp)).1
    have hb2 : dir ≠ Dir.both := (hbufs (b, dir) (by simp)).2
    have hnd' : pre'.Nodup := (List.nodup_cons.mp hnd).2
    have hp0notin : q.free_head ∉ pre' := (List.nodup_cons.mp hnd).1
    have hfhlt : q.free_head < SIZE := by omega
    set d0 : Descriptor := q.desc_shadow.getD q.free_head default with hd0
    set d : Descriptor := { d0 with addr := b.paddr, len := b.len, flags := setFlags dir }
      with hd
    set q3 : VQ SIZE := VQ.writeDesc { q with desc_shadow := q.desc_shadow.set q.free_head d,
                                              free_head := d.next } q.free_head with hq3
    have hstep : addDirectGo ((b, dir) :: bs') q last0 = addDirectGo bs' q3 q.free_head := by
      simp only [addDirectGo, if_neg hb1, if_pos hfhlt, ← hd0,
        setBuf_eq d0 b.paddr b.len dir hb2, ← hd, hq3]
    have hq3shadow : q3.desc_shadow = q.desc_shadow.set q.free_head d := by
      rw [hq3, VQ.writeDesc]
    have hq3desc : q3.desc = q.desc.set q.free_head d := by
      rw [hq3, VQ.writeDesc]
      show q.desc.set q.free_head ((q.desc_shadow.set q.free_head d).getD q.free_head default) =
        q.desc.set q.free_head d
      rw [getD_set_self _ _ _ _ (by omega)]
    have hq3fh : q3.free_head = d.next := rfl
    have hdnext : d.next = d0.next := rfl
    have hnexts3 : ∀ x, (q3.desc_shadow.getD x default).next =
        (q.desc_shadow.getD x default).next := by
      intro x
      rw [hq3shadow]
      by_cases hx : x = q.free_head
      · rw [hx, getD_set_self _ _ _ _ (by omega), ← hd0, hdnext]
      · rw [getD_set_ne _ _ _ _ _ (fun he => hx he.symm)]
    have hth3 : threadedB q3.desc_shadow q3.free_head pre' = true := by
      rw [threadedB_congr q.desc_shadow q3.desc_shadow (by rw [hq3shadow]; simp) pre'
        q3.free_head (fun x _ => hnexts3 x)]
      rw [hq3fh, hdnext, hd0]
      exact hth'
    obtain ⟨q', hrun, hs1', hs2', hfh', huns', hund', hnext', hchain', hmirror', hnu', hf1, hf2,
      hf3, hf4, hf5, hf6, hf7, hf8⟩ :=
      ih pre' q3 q.free_head (by rw [hq3shadow]; simp [hs1]) (by rw [hq3desc]; simp [hs2]) hth3
        (by simpa using hlen) hnd' (fun x hx => hbufs x (by simp [hx]))
    refine ⟨q', ?_, hs1', hs2', ?_, ?_, ?_, ?_, ?_, ?_, ?_, ?_, ?_, ?_, ?_, ?_, ?_, ?_, ?_⟩
    · rw [hstep, hrun, List.getLastD_cons]
    · rw [hfh']
      show walkEnd q3.desc_shadow q3.free_head pre' =
        walkEnd q.desc_shadow q.free_head (q.free_head :: pre')
      rw [walkEnd_congr q.desc_shadow q3.desc_shadow pre' q3.free_head
        (fun x _ => hnexts3 x)]
      rfl
    · intro x hx
      rw [List.mem_cons] at hx
      push_neg at hx
      rw [huns' x hx.2, hq3shadow, getD_set_ne _ _ _ _ _ (fun he => hx.1 he.symm)]
    · intro x hx
      rw [List.mem_cons] at hx
      push_neg at hx
      rw [hund' x hx.2, hq3desc, getD_set_ne _ _ _ _ _ (fun he => hx.1 he.symm)]
    · intro x
      rw [hnext' x, hnexts3 x]
    · -- the written chain
      have hp0d : q'.desc_shadow.getD q.free_head default = d := by
        rw [huns' q.free_head hp0notin, hq3shadow, getD_set_self _ _ _ _ (by omega)]
      have hdm : descMatch q'.desc_shadow q.free_head b dir = true := by
        unfold descMatch
        rw [hp0d, hd]
        simp
      cases pre' with
      | nil =>
        have hbs' : bs' = [] := List.length_eq_zero.mp (by simpa using hlen.symm)
        subst hbs'
        simpa [chainAllNextB] using hdm
      | cons p1 pre'' =>
        cases bs' with
        | nil => simp at hlen
        | cons bd1 bs'' =>
          obtain ⟨b1, dir1⟩ := bd1
          simp only [chainAllNextB, Bool.and_eq_true]
          refine ⟨⟨hdm, ?_⟩, hchain'⟩
          have hlink : d0.next = p1 := by
            obtain ⟨he, _, _⟩ := threadedB_head _ _ _ _ hth'
            rw [he, hd0]
          rw [hp0d]
          show d.next == p1
          rw [hdnext, hlink]
          simp
    · intro x hx
      rw [List.mem_cons] at hx
      rcases hx with hx | hx
      · subst hx
        rw [huns' q.free_head hp0notin, hund' q.free_head hp0notin, hq3desc, hq3shadow,
          getD_set_self _ _ _ _ (by omega), getD_set_self _ _ _ _ (by omega)]
      · exact hmirror' x hx
    · rw [hnu']
      rfl
    · rw [hf1]
      rfl
    · rw [hf2]
      rfl
    · rw [hf3]
      rfl
    · rw [hf4]
      rfl
    · rw [hf5]
      rfl
    · rw [hf6]
      rfl
    · rw [hf7]
      rfl
    · rw [hf8]
      rfl

theorem getLastD_mem {α : Type} : ∀ (l : List α) (a : α), l ≠ [] → l.getLastD a ∈ l := by
  intro l
  induction l with
  | nil => intro a h; exact absurd rfl h
  | cons x xs ih =>
    intro a _
    rw [List.getLastD_cons]
    by_cases hxs : xs = []
    · subst hxs; simp
    · exact List.mem_cons_of_mem x (ih x hxs)

theorem getLastD_irrel {α : Type} : ∀ (l : List α) (a b : α), l ≠ [] → l.getLastD a = l.getLastD b := by
  intro l
  induction l with
  | nil => intro a b h; exact absurd rfl h
  | cons x xs ih =>
    intro a b _
    rw [List.getLastD_cons, List.getLastD_cons]

theorem ioSeq_not_both (inputs outputs : List Buffer) :
    ∀ bd ∈ ioSeq inputs outputs, bd.2 ≠ Dir.both := by
  intro bd hbd
  rw [ioSeq, List.mem_append] at hbd
  rcases hbd with hbd | hbd <;> rw [List.mem_map] at hbd <;> obtain ⟨b, _, he⟩ := hbd <;>
    rw [← he] <;> simp

theorem ioSeq_length (inputs outputs : List Buffer) :
    (ioSeq inputs outputs).length = inputs.length + outputs.length := by
  simp [ioSeq]

theorem setFlags_write (dir : Dir) :
    hasFlag (setFlags dir) WRITE_FLAG = (dir == Dir.deviceToDriver) := by
  cases dir <;> decide

theorem setFlags_next (dir : Dir) : hasFlag (setFlags dir) NEXT_FLAG = true := by
  cases dir <;> decide

theorem setFlags_indirect (dir : Dir) : hasFlag (setFlags dir) INDIRECT_FLAG = false := by
  cases dir <;> decide

theorem rm_setFlags_write (dir : Dir) :
    hasFlag (rmFlag (setFlags dir) NEXT_FLAG) WRITE_FLAG = (dir == Dir.deviceToDriver) := by
  cases dir <;> decide

theorem rm_setFlags_next (dir : Dir) :
    hasFlag (rmFlag (setFlags dir) NEXT_FLAG) NEXT_FLAG = false := by
  cases dir <;> decide

theorem rm_setFlags_indirect (dir : Dir) :
    hasFlag (rmFlag (setFlags dir) NEXT_FLAG) INDIRECT_FLAG = false := by
  cases dir <;> decide

/-- The chain layout claim C7 asserts of a successful direct add: each slot
holds its buffer's address and length, WRITE set exactly on device-writable
buffers, NEXT set with next pointing at the successor on all but the last
slot, NEXT clear on the last, and INDIRECT nowhere. -/
def chainLayoutB (shadow : List Descriptor) : List Nat → List (Buffer × Dir) → Bool
  | [], [] => true
  | [x], [(b, dir)] =>
    ((shadow.getD x default).addr == b.paddr) && ((shadow.getD x default).len == b.len) &&
      (hasFlag (shadow.getD x default).flags WRITE_FLAG == (dir == Dir.deviceToDriver)) &&
      !hasFlag (shadow.getD x default).flags NEXT_FLAG &&
      !hasFlag (shadow.getD x default).flags INDIRECT_FLAG
  | x :: y :: xs, (b, dir) :: bs =>
    ((shadow.getD x default).addr == b.paddr) && ((shadow.getD x default).len == b.len) &&
      (hasFlag (shadow.getD x default).flags WRITE_FLAG == (dir == Dir.deviceToDriver)) &&
      hasFlag (shadow.getD x default).flags NEXT_FLAG &&
      !hasFlag (shadow.getD x default).flags INDIRECT_FLAG &&
      ((shadow.getD x default).next == y) && chainLayoutB shadow (y :: xs) bs
  | _, _ => false

theorem chainLayoutB_after_rmLast (shadow shadow4 : List Descriptor) :
    ∀ (s : List Nat) (bs : List (Buffer × Dir)) (lastE : Nat),
    s.Nodup → s ≠ [] → s.getLastD 0 = lastE →
    chainAllNextB shadow s bs = true →
    (∀ x ∈ s, x ≠ lastE → shadow4.getD x default = shadow.getD x default) →
    shadow4.getD lastE default =
      { shadow.getD lastE default with
        flags := rmFlag (shadow.getD lastE default).flags NEXT_FLAG } →
    chainLayoutB shadow4 s bs = true := by
  intro s
  induction s with
  | nil => intro bs lastE _ hne; exact absurd rfl hne
  | cons x xs ih =>
    intro bs lastE hnd hne hlast hchain huns hrm
    cases xs with
    | nil =>
      -- single-element chain
      have hxlast : x = lastE := by
        simpa [List.getLastD_cons] using hlast
      cases bs with
      | nil => simp [chainAllNextB] at hchain
      | cons bd bs' =>
        obtain ⟨b, dir⟩ := bd
        cases bs' with
        | cons bd2 bs'' => simp [chainAllNextB] at hchain
        | nil =>
          simp only [chainAllNextB, descMatch, Bool.and_eq_true, beq_iff_eq] at hchain
          obtain ⟨⟨haddr, hlenb⟩, hflags⟩ := hchain
          subst hxlast
          simp only [chainLayoutB, hrm, Bool.and_eq_true, beq_iff_eq, Bool.not_eq_true']
          rw [hflags]
          exact ⟨⟨⟨⟨haddr, hlenb⟩, rm_setFlags_write dir⟩, rm_setFlags_next dir⟩,
            rm_setFlags_indirect dir⟩
    | cons y ys =>
      cases bs with
      | nil => simp [chainAllNextB] at hchain
      | cons bd bs' =>
        obtain ⟨b, dir⟩ := bd
        simp only [chainAllNextB, descMatch, Bool.and_eq_true, beq_iff_eq] at hchain
        obtain ⟨⟨⟨⟨haddr, hlenb⟩, hflags⟩, hnext⟩, hrest⟩ := hchain
        have hlast2 : (y :: ys).getLastD 0 = lastE := by
          rw [List.getLastD_cons] at hlast
          rw [← hlast]
          exact getLastD_irrel (y :: ys) 0 x (by simp)
        have hxmem : x ∈ x :: y :: ys := by simp
        have hxne : x ≠ lastE := by
          intro hx
          have hlmem : (y :: ys).getLastD 0 ∈ y :: ys := getLastD_mem (y :: ys) 0 (by simp)
          rw [hlast2, ← hx] at hlmem
          exact (List.nodup_cons.mp hnd).1 hlmem
        have hx4 : shadow4.getD x default = shadow.getD x default := huns x hxmem hxne
        simp only [chainLayoutB, hx4, Bool.and_eq_true, beq_iff_eq, Bool.not_eq_true']
        rw [hflags]
        refine ⟨⟨⟨⟨⟨⟨haddr, hlenb⟩, setFlags_write dir⟩, setFlags_next dir⟩,
          setFlags_indirect dir⟩, hnext⟩, ?_⟩
        exact ih bs' lastE (List.nodup_cons.mp hnd).2 (by simp) hlast2 hrest
          (fun z hz hzne => huns z (by simp [hz]) hzne) hrm

theorem directChainB_of_layout (shadow : List Descriptor) :
    ∀ (s : List Nat) (bs : List (Buffer × Dir)),
    chainLayoutB shadow s bs = true → (∀ x ∈ s, x < shadow.length) → s ≠ [] →
    directChainB shadow s = true := by
  intro s
  induction s with
  | nil => intro bs _ _ hne; exact absurd rfl hne
  | cons x xs ih =>
    intro bs hcl hbd _
    cases xs with
    | nil =>
      cases bs with
      | nil => simp [chainLayoutB] at hcl
      | cons bd bs' =>
        obtain ⟨b, dir⟩ := bd
        cases bs' with
        | cons bd2 bs2 => simp [chainLayoutB] at hcl
        | nil =>
          simp only [chainLayoutB, Bool.and_eq_true, Bool.not_eq_true'] at hcl
          obtain ⟨⟨_, hn⟩, _⟩ := hcl
          show (decide (x < shadow.length) &&
            !hasFlag (shadow.getD x default).flags NEXT_FLAG) = true
          rw [hn]
          simp [hbd x (by simp)]
    | cons y ys =>
      cases bs with
      | nil => simp [chainLayoutB] at hcl
      | cons bd bs' =>
        obtain ⟨b, dir⟩ := bd
        simp only [chainLayoutB, Bool.and_eq_true, Bool.not_eq_true'] at hcl
        obtain ⟨⟨⟨⟨⟨⟨_, _⟩, _⟩, hn⟩, _⟩, hnx⟩, hrec⟩ := hcl
        have hrest : directChainB shadow (y :: ys) = true :=
          ih bs' hrec (fun z hz => hbd z (by simp [hz])) (by simp)
        show (decide (x < shadow.length) && hasFlag (shadow.getD x default).flags NEXT_FLAG &&
          ((shadow.getD x default).next == y) && directChainB shadow (y :: ys)) = true
        rw [hn, hnx, hrest]
        simp [hbd x (by simp)]

theorem chainLayoutB_head_not_indirect (shadow : List Descriptor) (x : Nat) (xs : List Nat)
    (bs : List (Buffer × Dir)) (h : chainLayoutB shadow (x :: xs) bs = true) :
    hasFlag (shadow.getD x default).flags INDIRECT_FLAG = false := by
  cases xs with
  | nil =>
    cases bs with
    | nil => simp [chainLayoutB] at h
    | cons bd bs' =>
      obtain ⟨b, dir⟩ := bd
      cases bs' with
      | cons bd2 bs2 => simp [chainLayoutB] at h
      | nil =>
        simp only [chainLayoutB, Bool.and_eq_true, Bool.not_eq_true'] at h
        exact h.2
  | cons y ys =>
    cases bs with
    | nil => simp [chainLayoutB] at h
    | cons bd bs' =>
      obtain ⟨b, dir⟩ := bd
      simp only [chainLayoutB, Bool.and_eq_true, Bool.not_eq_true'] at h
      exact h.1.1.2

theorem flightWF_of_layout (shadow : List Descriptor) (ilists : List (Option (List Descriptor)))
    (s : List Nat) (bs : List (Buffer × Dir))
    (hcl : chainLayoutB shadow s bs = true) (hbd : ∀ x ∈ s, x < shadow.length)
    (hne : s ≠ []) : flightWFb shadow ilists (Flight.direct s) = true := by
  obtain ⟨x, xs, rfl⟩ := List.exists_cons_of_ne_nil hne
  have h1 := directChainB_of_layout shadow (x :: xs) bs hcl hbd (by simp)
  have h2 := chainLayoutB_head_not_indirect shadow x xs bs hcl
  show (!(x :: xs).isEmpty && directChainB shadow (x :: xs) &&
    !hasFlag (shadow.getD x default).flags INDIRECT_FLAG) = true
  rw [h1, h2]
  rfl

theorem addDirect_spec {SIZE : Nat} (q : VQ SIZE) (inputs outputs : List Buffer)
    (pre : List Nat)
    (hs1 : q.desc_shadow.length = SIZE) (hs2 : q.desc.length = SIZE)
    (hth : threadedB q.desc_shadow q.free_head pre = true)
    (hlen : pre.length = inputs.length + outputs.length)
    (hnd : pre.Nodup) (hne : pre ≠ [])
    (hbufs : ∀ b ∈ ioSeq inputs outputs, b.1.len ≠ 0) :
    ∃ q4, addDirect q inputs outputs = some (q4, q.free_head) ∧
      q4.desc_shadow.length = SIZE ∧ q4.desc.length = SIZE ∧
      q4.free_head = walkEnd q.desc_shadow q.free_head pre ∧
      (∀ x, x ∉ pre → q4.desc_shadow.getD x default = q.desc_shadow.getD x default) ∧
      (∀ x, x ∉ pre → q4.desc.getD x default = q.desc.getD x default) ∧
      (∀ x, (q4.desc_shadow.getD x default).next = (q.desc_shadow.getD x default).next) ∧
      chainLayoutB q4.desc_shadow pre (ioSeq inputs outputs) = true ∧
      (∀ x ∈ pre, q4.desc.getD x default = q4.desc_shadow.getD x default) ∧
      q4.num_used = q.num_used + (inputs.length + outputs.length) ∧
      q4.avail_flags = q.avail_flags ∧ q4.avail_idx = q.avail_idx ∧
      q4.avail_ring = q.avail_ring ∧ q4.avail_used_event = q.avail_used_event ∧
      q4.last_used_idx = q.last_used_idx ∧ q4.event_idx = q.event_idx ∧
      q4.indirect = q.indirect ∧ q4.indirect_lists = q.indirect_lists := by
  have hbufs2 : ∀ b ∈ ioSeq inputs outputs, b.1.len ≠ 0 ∧ b.2 ≠ Dir.both :=
    fun b h => ⟨hbufs b h, ioSeq_not_both inputs outputs b h⟩
  have hlen2 : pre.length = (ioSeq inputs outputs).length := by
    rw [ioSeq_length]; exact hlen
  obtain ⟨q1, hrun, hl1, hl2, hfh, huns, hund, hnext, hchain, hmir, hnu, hf1, hf2, hf3, hf4,
    hf5, hf6, hf7, hf8⟩ :=
    addDirectGo_spec (ioSeq inputs outputs) pre q q.free_head hs1 hs2 hth hlen2 hnd hbufs2
  have hlastmem : pre.getLastD q.free_head ∈ pre := getLastD_mem pre q.free_head hne
  have hlastlt : pre.getLastD q.free_head < SIZE := by
    have := threadedB_mem_lt q.desc_shadow pre q.free_head hth _ hlastmem
    omega
  set last := pre.getLastD q.free_head with hlastdef
  set d : Descriptor := q1.desc_shadow.getD last default with hddef
  set d1 : Descriptor := { d with flags := rmFlag d.flags NEXT_FLAG } with hd1def
  have hq1lastlt : last < q1.desc_shadow.length := by omega
  have hq1dlastlt : last < (q1.desc_shadow.set last d1).length := by
    rw [List.length_set]; omega
  have hq1desclt : last < q1.desc.length := by omega
  refine
    ⟨{ q1 with
        desc_shadow := q1.desc_shadow.set last d1,
        desc := q1.desc.set last ((q1.desc_shadow.set last d1).getD last default),
        num_used := q1.num_used + (inputs.length + outputs.length) },
      ?_, ?_, ?_, ?_, ?_, ?_, ?_, ?_, ?_, ?_, ?_, ?_, ?_, ?_, ?_, ?_, ?_, ?_⟩
  · simp only [addDirect, hrun]
    rw [if_pos hlastlt]
    rfl
  · simpa using hl1
  · simpa using hl2
  · exact hfh
  · intro x hx
    have hxne : last ≠ x := fun he => hx (he ▸ hlastmem)
    show (q1.desc_shadow.set last d1).getD x default = q.desc_shadow.getD x default
    rw [getD_set_ne q1.desc_shadow last x d1 default hxne]
    exact huns x hx
  · intro x hx
    have hxne : last ≠ x := fun he => hx (he ▸ hlastmem)
    show (q1.desc.set last _).getD x default = q.desc.getD x default
    rw [getD_set_ne _ last x _ default hxne]
    exact hund x hx
  · intro x
    by_cases hx : last = x
    · subst hx
      show ((q1.desc_shadow.set last d1).getD last default).next = _
      rw [getD_set_self q1.desc_shadow last d1 default hq1lastlt]
      exact hnext last
    · show ((q1.desc_shadow.set last d1).getD x default).next = _
      rw [getD_set_ne q1.desc_shadow last x d1 default hx]
      exact hnext x
  · refine chainLayoutB_after_rmLast q1.desc_shadow _ pre (ioSeq inputs outputs) last hnd hne
      ?_ hchain ?_ ?_
    · rw [hlastdef]
      exact getLastD_irrel pre 0 q.free_head hne
    · intro x hx hxne
      exact getD_set_ne q1.desc_shadow last x d1 default (fun he => hxne he.symm)
    · show (q1.desc_shadow.set last d1).getD last default = _
      rw [getD_set_self q1.desc_shadow last d1 default hq1lastlt]
  · intro x hx
    by_cases hxl : last = x
    · subst hxl
      show (q1.desc.set last _).getD last default = (q1.desc_shadow.set last d1).getD last default
      rw [getD_set_self q1.desc last _ default hq1desclt]
    · show (q1.desc.set last _).getD x default = (q1.desc_shadow.set last d1).getD x default
      rw [getD_set_ne q1.desc last x _ default hxl, getD_set_ne q1.desc_shadow last x d1
        default hxl]
      exact hmir x hx
  · show q1.num_used + (inputs.length + outputs.length) = _
    omega
  · exact hf1
  · exact hf2
  · exact hf3
  · exact hf4
  · exact hf5
  · exact hf6
  · exact hf7
  · exact hf8

theorem directChainB_congr (shadow shadow' : List Descriptor)
    (hlen : shadow'.length = shadow.length) :
    ∀ (s : List Nat),
    (∀ x ∈ s, shadow'.getD x default = shadow.getD x default) →
    directChainB shadow' s = directChainB shadow s := by
  intro s
  induction s with
  | nil => intro _; rfl
  | cons x xs ih =>
    intro hx
    cases xs with
    | nil =>
      show (decide (x < shadow'.length) && _) = (decide (x < shadow.length) && _)
      rw [hlen, hx x (by simp)]
    | cons y ys =>
      show (decide (x < shadow'.length) && hasFlag (shadow'.getD x default).flags NEXT_FLAG &&
        ((shadow'.getD x default).next == y) && directChainB shadow' (y :: ys)) =
        (decide (x < shadow.length) && hasFlag (shadow.getD x default).flags NEXT_FLAG &&
        ((shadow.getD x default).next == y) && directChainB shadow (y :: ys))
      rw [hlen, hx x (by simp), ih (fun z hz => hx z (by simp [hz]))]

theorem flightWFb_congr (shadow shadow' : List Descriptor)
    (ilists ilists' : List (Option (List Descriptor)))
    (hlen : shadow'.length = shadow.length) (fl : Flight)
    (hsh : ∀ x ∈ fl.slots, shadow'.getD x default = shadow.getD x default)
    (hil : ∀ x ∈ fl.slots, ilists'.getD x none = ilists.getD x none) :
    flightWFb shadow' ilists' fl = flightWFb shadow ilists fl := by
  cases fl with
  | direct s =>
    cases s with
    | nil => rfl
    | cons x xs =>
      show (!(x :: xs).isEmpty && directChainB shadow' (x :: xs) &&
        !hasFlag (shadow'.getD x default).flags INDIRECT_FLAG) =
        (!(x :: xs).isEmpty && directChainB shadow (x :: xs) &&
        !hasFlag (shadow.getD x default).flags INDIRECT_FLAG)
      rw [directChainB_congr shadow shadow' hlen (x :: xs) hsh, hsh x (by simp [Flight.slots])]
  | indir h c =>
    show (decide (h < shadow'.length) && hasFlag (shadow'.getD h default).flags INDIRECT_FLAG &&
      (match ilists'.getD h none with | some l => l.length == c | none => false)) =
      (decide (h < shadow.length) && hasFlag (shadow.getD h default).flags INDIRECT_FLAG &&
      (match ilists.getD h none with | some l => l.length == c | none => false))
    rw [hlen, hsh h (by simp [Flight.slots]), hil h (by simp [Flight.slots])]

theorem isIndirHead_mem_slots (flights : List Flight) (j : Nat)
    (h : isIndirHead flights j = true) : j ∈ flights.flatMap Flight.slots := by
  rw [isIndirHead, List.any_eq_true] at h
  obtain ⟨fl, hmem, hfl⟩ := h
  rw [List.mem_flatMap]
  refine ⟨fl, hmem, ?_⟩
  cases fl with
  | direct s => simp at hfl
  | indir h' c =>
    have : h' = j := by simpa using hfl
    simp [Flight.slots, this]

theorem isIndirHead_exists (flights : List Flight) (j : Nat)
    (h : isIndirHead flights j = true) : ∃ c, Flight.indir j c ∈ flights := by
  rw [isIndirHead, List.any_eq_true] at h
  obtain ⟨fl, hmem, hfl⟩ := h
  cases fl with
  | direct s => simp at hfl
  | indir h' c =>
    have : h' = j := by simpa using hfl
    exact ⟨c, this ▸ hmem⟩

theorem isIndirHead_append_left (flights l : List Flight) (j : Nat)
    (h : isIndirHead flights j = true) : isIndirHead (flights ++ l) j = true := by
  rw [isIndirHead] at h ⊢
  rw [List.any_append, h, Bool.true_or]

theorem isIndirHead_of_mem (flights : List Flight) (j c : Nat)
    (h : Flight.indir j c ∈ flights) : isIndirHead flights j = true := by
  rw [isIndirHead, List.any_eq_true]
  exact ⟨Flight.indir j c, h, by simp⟩

theorem inv_facts {SIZE : Nat} (q : VQ SIZE) (free : List Nat) (flights : List Flight)
    (hinv : Inv q free flights) :
    free.Nodup ∧ (flights.flatMap Flight.slots).Nodup ∧
    (∀ x ∈ free, x ∉ flights.flatMap Flight.slots) ∧
    free.length + (flights.flatMap Flight.slots).length = SIZE := by
  have hperm := hinv.2.2.2.2.1
  have hnd : (free ++ flights.flatMap Flight.slots).Nodup :=
    hperm.nodup_iff.mpr (List.nodup_range SIZE)
  have hlen := hperm.length_eq
  rw [List.length_append, List.length_range] at hlen
  rw [List.nodup_append] at hnd
  exact ⟨hnd.1, hnd.2.1, hnd.2.2, hlen⟩

theorem free_take_facts {SIZE : Nat} (q : VQ SIZE) (free : List Nat) (flights : List Flight)
    (k : Nat) (hinv : Inv q free flights) (hk : k ≤ free.length) :
    (free.take k).length = k ∧ (free.take k).Nodup ∧
    threadedB q.desc_shadow q.free_head (free.take k) = true ∧
    threadedB q.desc_shadow (walkEnd q.desc_shadow q.free_head (free.take k))
      (free.drop k) = true ∧
    (∀ x ∈ free.take k, x ∈ free) := by
  have hndfree : free.Nodup := (inv_facts q free flights hinv).1
  have hth := hinv.2.2.2.2.2.1
  have hsplit : free.take k ++ free.drop k = free := List.take_append_drop k free
  have hth2 : threadedB q.desc_shadow q.free_head (free.take k ++ free.drop k) = true := by
    rw [hsplit]; exact hth
  obtain ⟨h1, h2⟩ := threadedB_append_split q.desc_shadow (free.take k) (free.drop k)
    q.free_head hth2
  refine ⟨by rw [List.length_take]; omega, ?_, h1, h2, fun x hx => List.mem_of_mem_take hx⟩
  exact (List.take_sublist k free).nodup hndfree

theorem threadedB_append_join (shadow : List Descriptor) :
    ∀ (l1 l2 : List Nat) (h : Nat),
    threadedB shadow h l1 = true → threadedB shadow (walkEnd shadow h l1) l2 = true →
    threadedB shadow h (l1 ++ l2) = true := by
  intro l1
  induction l1 with
  | nil => intro l2 h _ h2; exact h2
  | cons x xs ih =>
    intro l2 h h1 h2
    simp only [threadedB, Bool.and_eq_true] at h1
    simp only [List.cons_append, threadedB, Bool.and_eq_true]
    refine ⟨h1.1, ?_⟩
    refine ih l2 _ h1.2 ?_
    simpa only [walkEnd] using h2

theorem addDirectGo_lens {SIZE : Nat} :
    ∀ (bs : List (Buffer × Dir)) (q : VQ SIZE) (l : Nat) (r : VQ SIZE × Nat),
    addDirectGo bs q l = some r → ∀ b ∈ bs, b.1.len ≠ 0 := by
  intro bs
  induction bs with
  | nil => intro q l r _ b hb; cases hb
  | cons bd rest ih =>
    intro q l r hrun b hb
    obtain ⟨b0, dir0⟩ := bd
    simp only [addDirectGo] at hrun
    by_cases h0 : b0.len = 0
    · rw [if_pos h0] at hrun; cases hrun
    · rw [if_neg h0] at hrun
      by_cases hlt : q.free_head < SIZE
      · rw [if_pos hlt] at hrun
        rw [List.mem_cons] at hb
        rcases hb with hb | hb
        · rw [hb]; exact h0
        · cases hm : (q.desc_shadow.getD q.free_head default).setBuf b0.paddr b0.len dir0
              NEXT_FLAG with
          | none => rw [hm] at hrun; cases hrun
          | some d =>
            rw [hm] at hrun
            exact ih _ _ _ hrun b hb
      · rw [if_neg hlt] at hrun; cases hrun

theorem buildIndirectGo_spec :
    ∀ (bs : List (Buffer × Dir)), (∀ b ∈ bs, b.2 ≠ Dir.both) →
    ∀ (i : Nat), ∃ ds, buildIndirectGo bs i = some ds ∧ ds.length = bs.length := by
  intro bs
  induction bs with
  | nil => intro _ i; exact ⟨[], rfl, rfl⟩
  | cons bd rest ih =>
    intro hb i
    obtain ⟨b, dir⟩ := bd
    obtain ⟨ds, hds, hlen⟩ := ih (fun b h => hb b (by simp [h])) (i + 1)
    have hdir : dir ≠ Dir.both := hb (b, dir) (by simp)
    cases dir with
    | both => exact absurd rfl hdir
    | driverToDevice =>
      refine ⟨{ addr := b.paddr, len := b.len, flags := NEXT_FLAG, next := i + 1 } :: ds,
        ?_, ?_⟩
      · simp [buildIndirectGo, Descriptor.setBuf, hds]
      · simp [hlen]
    | deviceToDriver =>
      refine
        ⟨{ addr := b.paddr, len := b.len, flags := NEXT_FLAG ||| WRITE_FLAG, next := i + 1 } ::
          ds, ?_, ?_⟩
      · simp [buildIndirectGo, Descriptor.setBuf, hds]
      · simp [hlen]

theorem rmLastNext_length : ∀ (l : List Descriptor), (rmLastNext l).length = l.length := by
  intro l
  induction l with
  | nil => rfl
  | cons d ds ih =>
    cases ds with
    | nil => rfl
    | cons d2 rest =>
      show (d :: rmLastNext (d2 :: rest)).length = _
      simp only [List.length_cons]
      rw [ih]
      simp

theorem addIndirect_spec {SIZE : Nat} (q : VQ SIZE) (inputs outputs : List Buffer)
    (h0 : q.free_head < SIZE)
    (hvac : q.indirect_lists.getD q.free_head none = none)
    (hne : ioSeq inputs outputs ≠ []) :
    ∃ il, il.length = inputs.length + outputs.length ∧
      addIndirect q inputs outputs =
        some ({ q with
                 desc_shadow := q.desc_shadow.set q.free_head
                   { q.desc_shadow.getD q.free_head default with
                     addr := 0, len := 16 * il.length, flags := INDIRECT_FLAG },
                 desc := q.desc.set q.free_head
                   ((q.desc_shadow.set q.free_head
                     { q.desc_shadow.getD q.free_head default with
                       addr := 0, len := 16 * il.length, flags := INDIRECT_FLAG }).getD
                     q.free_head default),
                 free_head := (q.desc_shadow.getD q.free_head default).next,
                 num_used := q.num_used + 1,
                 indirect_lists := q.indirect_lists.set q.free_head (some il) },
          q.free_head) := by
  obtain ⟨ds0, hds0, hds0len⟩ :=
    buildIndirectGo_spec (ioSeq inputs outputs) (ioSeq_not_both inputs outputs) 0
  have hlen : (rmLastNext ds0).length = inputs.length + outputs.length := by
    rw [rmLastNext_length, hds0len, ioSeq_length]
  refine ⟨rmLastNext ds0, hlen, ?_⟩
  have hds0ne : ds0.isEmpty = false := by
    cases hc : ds0 with
    | nil =>
      exfalso
      rw [hc] at hds0len
      have : (ioSeq inputs outputs).length = 0 := hds0len.symm
      exact hne (List.length_eq_zero.mp this)
    | cons d rest => rfl
  simp only [addIndirect, hds0, hds0ne, Bool.false_eq_true, if_false, if_pos h0, hvac,
    Option.isSome_none, Descriptor.setBuf]
  rfl

theorem recycleGo_spec {SIZE : Nat} (ofh : Nat) :
    ∀ (s : List Nat) (bs : List (Buffer × Dir)) (q : VQ SIZE) (h0 : Nat),
    q.desc_shadow.length = SIZE → q.desc.length = SIZE →
    directChainB q.desc_shadow (h0 :: s) = true →
    bs.length = s.length + 1 →
    (∀ b ∈ bs, b.1.len ≠ 0) →
    (h0 :: s).Nodup →
    ∃ q2, recycleGo ofh bs (some h0) q = some q2 ∧
      q2.desc_shadow.length = SIZE ∧ q2.desc.length = SIZE ∧
      (∀ x, x ∉ h0 :: s → q2.desc_shadow.getD x default = q.desc_shadow.getD x default) ∧
      (∀ x, x ∉ h0 :: s → q2.desc.getD x default = q.desc.getD x default) ∧
      threadedB q2.desc_shadow h0 (h0 :: s) = true ∧
      walkEnd q2.desc_shadow h0 (h0 :: s) = ofh ∧
      q2.num_used = q.num_used - bs.length ∧
      q2.free_head = q.free_head ∧ q2.indirect_lists = q.indirect_lists ∧
      q2.avail_flags = q.avail_flags ∧ q2.avail_idx = q.avail_idx ∧
      q2.avail_ring = q.avail_ring ∧ q2.avail_used_event = q.avail_used_event ∧
      q2.last_used_idx = q.last_used_idx ∧ q2.event_idx = q.event_idx ∧
      q2.indirect = q.indirect := by
  intro s
  induction s with
  | nil =>
    intro bs q h0 hs1 hs2 hchain hblen hbufs _
    simp only [directChainB, Bool.and_eq_true, Bool.not_eq_true', decide_eq_true_eq] at hchain
    obtain ⟨h0lt, h0nn⟩ := hchain
    cases bs with
    | nil => simp at hblen
    | cons bd bs' =>
      cases bs' with
      | cons bd2 bs2 => simp at hblen
      | nil =>
        obtain ⟨b, dir⟩ := bd
        have hb0 : b.len ≠ 0 := hbufs (b, dir) (by simp)
        have h0lt2 : h0 < SIZE := by omega
        set d : Descriptor := q.desc_shadow.getD h0 default with hddef
        set d1 : Descriptor := { d with addr := 0, len := 0, next := ofh } with hd1def
        refine ⟨{ q with
                   desc_shadow := q.desc_shadow.set h0 d1,
                   desc := q.desc.set h0 ((q.desc_shadow.set h0 d1).getD h0 default),
                   num_used := q.num_used - 1 },
          ?_, ?_, ?_, ?_, ?_, ?_, ?_, ?_, ?_, ?_, ?_, ?_, ?_, ?_, ?_, ?_, ?_⟩
        · show recycleGo ofh [(b, dir)] (some h0) q = _
          simp only [recycleGo, if_neg (show ¬b.len = 0 from hb0), if_pos h0lt2, h0nn,
            Bool.false_eq_true, if_false, Option.isNone_none, if_true]
          rfl
        · simpa using hs1
        · simpa using hs2
        · intro x hx
          have hxne : h0 ≠ x := by simp at hx; omega
          show (q.desc_shadow.set h0 d1).getD x default = _
          rw [getD_set_ne q.desc_shadow h0 x d1 default hxne]
        · intro x hx
          have hxne : h0 ≠ x := by simp at hx; omega
          show (q.desc.set h0 _).getD x default = _
          rw [getD_set_ne q.desc h0 x _ default hxne]
        · show threadedB (q.desc_shadow.set h0 d1) h0 [h0] = true
          simp only [threadedB, Bool.and_eq_true, decide_eq_true_eq]
          refine ⟨⟨by simp, by rw [List.length_set]; omega⟩, trivial⟩
        · show walkEnd (q.desc_shadow.set h0 d1) h0 [h0] = ofh
          show ((q.desc_shadow.set h0 d1).getD h0 default).next = ofh
          rw [getD_set_self q.desc_shadow h0 d1 default (by omega)]
        · rfl
        · rfl
        · rfl
        · rfl
        · rfl
        · rfl
        · rfl
        · rfl
        · rfl
        · rfl
  | cons s1 srest ih =>
    intro bs q h0 hs1 hs2 hchain hblen hbufs hnd
    simp only [directChainB, Bool.and_eq_true, decide_eq_true_eq, beq_iff_eq] at hchain
    obtain ⟨⟨⟨h0lt, h0nx⟩, h0next⟩, hchain'⟩ := hchain
    cases bs with
    | nil => simp at hblen
    | cons bd bs' =>
      obtain ⟨b, dir⟩ := bd
      have hb0 : b.len ≠ 0 := hbufs (b, dir) (by simp)
      have h0lt2 : h0 < SIZE := by omega
      have h0nin : h0 ∉ s1 :: srest := (List.nodup_cons.mp hnd).1
      have hnd' : (s1 :: srest).Nodup := (List.nodup_cons.mp hnd).2
      set d : Descriptor := q.desc_shadow.getD h0 default with hddef
      set d1 : Descriptor := { d with addr := 0, len := 0, next := d.next } with hd1def
      set q1 : VQ SIZE := { q with desc_shadow := q.desc_shadow.set h0 d1,
                                   num_used := q.num_used - 1 } with hq1def
      set q2' : VQ SIZE := q1.writeDesc h0 with hq2def
      have hq2shadow : q2'.desc_shadow = q.desc_shadow.set h0 d1 := rfl
      have hq2chain : directChainB q2'.desc_shadow (s1 :: srest) = true := by
        rw [hq2shadow]
        rw [directChainB_congr q.desc_shadow (q.desc_shadow.set h0 d1)
          (by rw [List.length_set]) (s1 :: srest) ?_]
        · exact hchain'
        · intro x hx
          exact getD_set_ne q.desc_shadow h0 x d1 default (fun he => h0nin (he ▸ hx))
      obtain ⟨q2, hrun, hl1, hl2, huns, hund, hth, hwe, hnu, hfh, hil, hf1, hf2, hf3, hf4,
        hf5, hf6, hf7⟩ :=
        ih bs' q2' s1 (by rw [hq2shadow, List.length_set]; exact hs1)
          (by show (q.desc.set h0 ((q.desc_shadow.set h0 d1).getD h0 default)).length = SIZE;
              rw [List.length_set]; exact hs2)
          hq2chain (by simp only [List.length_cons] at hblen; omega)
          (fun b hb => hbufs b (by simp [hb])) hnd'
      have hq2geth0 : q2.desc_shadow.getD h0 default = d1 := by
        rw [huns h0 h0nin, hq2shadow, getD_set_self q.desc_shadow h0 d1 default (by omega)]
      refine ⟨q2, ?_, hl1, hl2, ?_, ?_, ?_, ?_, ?_, ?_, ?_, hf1, hf2, hf3, hf4, hf5, hf6, hf7⟩
      · show recycleGo ofh ((b, dir) :: bs') (some h0) q = some q2
        simp only [recycleGo, if_neg (by exact hb0), if_pos h0lt2, h0nx, if_true,
          Option.isNone_some, Bool.false_eq_true, if_false]
        rw [← h0next] at hrun
        exact hrun
      · intro x hx
        rw [List.mem_cons] at hx
        push_neg at hx
        rw [huns x hx.2, hq2shadow, getD_set_ne q.desc_shadow h0 x d1 default hx.1.symm]
      · intro x hx
        rw [List.mem_cons] at hx
        push_neg at hx
        rw [hund x hx.2]
        show (q.desc.set h0 ((q.desc_shadow.set h0 d1).getD h0 default)).getD x default = _
        rw [getD_set_ne q.desc h0 x _ default hx.1.symm]
      · have hd1next : d1.next = s1 := h0next
        show (h0 == h0 && decide (h0 < q2.desc_shadow.length) &&
          threadedB q2.desc_shadow (q2.desc_shadow.getD h0 default).next (s1 :: srest)) = true
        simp only [Bool.and_eq_true, decide_eq_true_eq]
        refine ⟨⟨by simp, by omega⟩, ?_⟩
        rw [hq2geth0, hd1next]
        exact hth
      · have hd1next : d1.next = s1 := h0next
        show walkEnd q2.desc_shadow (q2.desc_shadow.getD h0 default).next (s1 :: srest) = ofh
        rw [hq2geth0, hd1next]
        exact hwe
      · rw [hnu]
        show q2'.num_used - bs'.length = q.num_used - ((b, dir) :: bs').length
        show q.num_used - 1 - bs'.length = q.num_used - ((b, dir) :: bs').length
        rw [Nat.sub_sub, List.length_cons]
        rw [Nat.add_comm]
      · exact hfh
      · exact hil

theorem inv_add {SIZE : Nat} (q : VQ SIZE) (free : List Nat) (flights : List Flight)
    (inputs outputs : List Buffer)
    (hinv : Inv q free flights)
    (hbufs : ∀ b ∈ ioSeq inputs outputs, b.1.len ≠ 0) :
    (∀ e q1, q.add inputs outputs = AddResult.err e q1 → q1 = q) ∧
    (q.add inputs outputs = AddResult.panic → False) ∧
    (∀ t q1, q.add inputs outputs = AddResult.ok t q1 →
      ∃ free1 flights1, Inv q1 free1 flights1) := by
  obtain ⟨hndf, hndfl, hdisj, hlensum⟩ := inv_facts q free flights hinv
  obtain ⟨hs1, hs2, hs3, hsum, hperm, hth, hwf, hdom⟩ := hinv
  rw [add_eq]
  by_cases hemp : (inputs.isEmpty && outputs.isEmpty) = true
  · rw [if_pos hemp]
    refine ⟨?_, ?_, ?_⟩
    · intro e q1 h
      cases h
      rfl
    · intro h; cases h
    · intro t q1 h; cases h
  · rw [if_neg hemp]
    set k := inputs.length + outputs.length with hk
    have hk1 : 1 ≤ k := by
      rcases Nat.eq_zero_or_pos k with h0 | h1
      · exfalso
        have hi : inputs.length = 0 := by omega
        have ho : outputs.length = 0 := by omega
        rw [List.length_eq_zero] at hi ho
        subst hi; subst ho
        exact hemp rfl
      · exact h1
    by_cases hguard : (q.num_used + 1 > SIZE ∨ k > SIZE ∨
        (¬ q.indirect = true ∧ q.num_used + k > SIZE))
    · rw [if_pos hguard]
      refine ⟨?_, ?_, ?_⟩
      · intro e q1 h
        cases h
        rfl
      · intro h; cases h
      · intro t q1 h; cases h
    · rw [if_neg hguard]
      push_neg at hguard
      obtain ⟨hg1, hg2, hg3⟩ := hguard
      by_cases hpath : (q.indirect = true ∧ k > 1)
      · -- indirect path
        rw [if_pos hpath]
        have hfreelen : 1 ≤ free.length := by omega
        obtain ⟨f0, ftl, rfl⟩ : ∃ f0 ftl, free = f0 :: ftl := by
          cases free with
          | nil => simp at hfreelen
          | cons a l => exact ⟨a, l, rfl⟩
        obtain ⟨hf0h, hf0lt, hthtl⟩ := threadedB_head _ _ _ _ hth
        subst hf0h
        have hfh_lt : q.free_head < SIZE := by omega
        have hfhnin : q.free_head ∉ ftl := (List.nodup_cons.mp hndf).1
        have hvac : q.indirect_lists.getD q.free_head none = none := by
          cases hc : q.indirect_lists.getD q.free_head none with
          | none => rfl
          | some l =>
            exfalso
            have hsome : (q.indirect_lists.getD q.free_head none).isSome = true := by
              rw [hc]; rfl
            exact hdisj q.free_head (by simp)
              (isIndirHead_mem_slots flights q.free_head (hdom q.free_head hsome))
        have hioleng : (ioSeq inputs outputs).length = k := by rw [ioSeq_length, hk]
        have hione : ioSeq inputs outputs ≠ [] := by
          intro h
          rw [h] at hioleng
          simp at hioleng
          omega
        obtain ⟨il, hillen, heq⟩ := addIndirect_spec q inputs outputs hfh_lt hvac hione
        have hillen2 : il.length = k := by rw [hillen, hk]
        set dd : Descriptor := { q.desc_shadow.getD q.free_head default with
          addr := 0, len := 16 * il.length, flags := INDIRECT_FLAG } with hdddef
        have hddflags : dd.flags = INDIRECT_FLAG := by rw [hdddef]
        rw [heq]
        refine ⟨?_, ?_, ?_⟩
        · intro e q1 h; cases h
        · intro h; cases h
        · intro t q1 h
          cases h
          refine ⟨ftl, flights ++ [Flight.indir q.free_head k], ?_, ?_, ?_, ?_, ?_, ?_, ?_, ?_⟩
          · show (q.desc_shadow.set q.free_head dd).length = SIZE
            rw [List.length_set]; exact hs1
          · show (q.desc.set q.free_head _).length = SIZE
            rw [List.length_set]; exact hs2
          · show (q.indirect_lists.set q.free_head (some il)).length = SIZE
            rw [List.length_set]; exact hs3
          · show q.num_used + 1 + ftl.length = SIZE
            simp only [List.length_cons] at hsum
            omega
          · show (ftl ++ (flights ++ [Flight.indir q.free_head k]).flatMap Flight.slots).Perm
              (List.range SIZE)
            rw [List.flatMap_append]
            have hfl1 : [Flight.indir q.free_head k].flatMap Flight.slots = [q.free_head] := by
              simp [Flight.slots]
            rw [hfl1]
            have e1 : ftl ++ (flights.flatMap Flight.slots ++ [q.free_head]) =
                (ftl ++ flights.flatMap Flight.slots) ++ [q.free_head] :=
              (List.append_assoc _ _ _).symm
            rw [e1]
            exact List.Perm.trans List.perm_append_comm hperm
          · show threadedB (q.desc_shadow.set q.free_head dd)
              (q.desc_shadow.getD q.free_head default).next ftl = true
            rw [threadedB_congr q.desc_shadow (q.desc_shadow.set q.free_head dd)
              (by rw [List.length_set]) ftl ((q.desc_shadow.getD q.free_head default).next)
              (fun x hx => by
                rw [getD_set_ne q.desc_shadow q.free_head x dd default
                  (fun he => hfhnin (he ▸ hx))])]
            exact hthtl
          · intro fl hfl
            rw [List.mem_append] at hfl
            rcases hfl with hfl | hfl
            · have hslots : ∀ x ∈ fl.slots, x ≠ q.free_head := by
                intro x hx he
                refine hdisj q.free_head (by simp) ?_
                rw [List.mem_flatMap]
                exact ⟨fl, hfl, he ▸ hx⟩
              show flightWFb (q.desc_shadow.set q.free_head dd)
                (q.indirect_lists.set q.free_head (some il)) fl = true
              rw [flightWFb_congr q.desc_shadow (q.desc_shadow.set q.free_head dd)
                q.indirect_lists (q.indirect_lists.set q.free_head (some il))
                (by rw [List.length_set]) fl
                (fun x hx => getD_set_ne q.desc_shadow q.free_head x dd default
                  (fun he => hslots x hx he.symm))
                (fun x hx => getD_set_ne q.indirect_lists q.free_head x (some il) none
                  (fun he => hslots x hx he.symm))]
              exact hwf fl hfl
            · have hfl2 : fl = Flight.indir q.free_head k := by simpa using hfl
              subst hfl2
              show (decide (q.free_head < (q.desc_shadow.set q.free_head dd).length) &&
                hasFlag ((q.desc_shadow.set q.free_head dd).getD q.free_head default).flags
                  INDIRECT_FLAG &&
                (match (q.indirect_lists.set q.free_head (some il)).getD q.free_head none with
                 | some l => l.length == k
                 | none => false)) = true
              rw [List.length_set, getD_set_self q.desc_shadow q.free_head dd default
                (by omega), getD_set_self q.indirect_lists q.free_head (some il) none
                (by omega), hddflags]
              simp [hasFlag, INDIRECT_FLAG, hfh_lt, hs1, hillen2]
          · intro j hjs
            by_cases hj : j = q.free_head
            · subst hj
              exact isIndirHead_of_mem _ q.free_head k (by simp)
            · have hjs2 : (q.indirect_lists.getD j none).isSome = true := by
                have hjs3 : ((q.indirect_lists.set q.free_head (some il)).getD j
                    none).isSome = true := hjs
                rw [getD_set_ne q.indirect_lists q.free_head j (some il) none
                  (fun he => hj he.symm)] at hjs3
                exact hjs3
              exact isIndirHead_append_left flights _ j (hdom j hjs2)
      · -- direct path
        rw [if_neg hpath]
        have hcap : q.num_used + k ≤ SIZE := by
          by_cases hind : q.indirect = true
          · have hk2 : k ≤ 1 := by
              by_contra hgt
              exact hpath ⟨hind, by omega⟩
            omega
          · exact hg3 hind
        have hkfree : k ≤ free.length := by omega
        obtain ⟨htklen, htknd, htkth, hdrth, htksub⟩ :=
          free_take_facts q free flights k ⟨hs1, hs2, hs3, hsum, hperm, hth, hwf, hdom⟩ hkfree
        have htkne : free.take k ≠ [] := by
          intro h
          rw [h] at htklen
          simp at htklen
          omega
        obtain ⟨q4, heq, hl1, hl2, hfh, huns, hund, hnext, hlayout, hmir, hnu, hf1, hf2, hf3,
          hf4, hf5, hf6, hf7, hf8⟩ :=
          addDirect_spec q inputs outputs (free.take k) hs1 hs2 htkth (by rw [htklen, hk])
            htknd htkne hbufs
        rw [heq]
        refine ⟨?_, ?_, ?_⟩
        · intro e q1 h; cases h
        · intro h; cases h
        · intro t q1 h
          cases h
          refine ⟨free.drop k, flights ++ [Flight.direct (free.take k)],
            ?_, ?_, ?_, ?_, ?_, ?_, ?_, ?_⟩
          · show q4.desc_shadow.length = SIZE
            exact hl1
          · show q4.desc.length = SIZE
            exact hl2
          · show q4.indirect_lists.length = SIZE
            rw [hf8]; exact hs3
          · show q4.num_used + (free.drop k).length = SIZE
            rw [hnu, List.length_drop, ← hk]
            omega
          · show (free.drop k ++
              (flights ++ [Flight.direct (free.take k)]).flatMap Flight.slots).Perm
              (List.range SIZE)
            rw [List.flatMap_append]
            have hfl1 : [Flight.direct (free.take k)].flatMap Flight.slots = free.take k := by
              simp [Flight.slots]
            rw [hfl1]
            have e1 : free.drop k ++ (flights.flatMap Flight.slots ++ free.take k) =
                (free.drop k ++ flights.flatMap Flight.slots) ++ free.take k :=
              (List.append_assoc _ _ _).symm
            rw [e1]
            refine List.Perm.trans List.perm_append_comm ?_
            have e2 : free.take k ++ (free.drop k ++ flights.flatMap Flight.slots) =
                (free.take k ++ free.drop k) ++ flights.flatMap Flight.slots :=
              (List.append_assoc _ _ _).symm
            rw [e2, List.take_append_drop]
            exact hperm
          · show threadedB q4.desc_shadow q4.free_head (free.drop k) = true
            rw [hfh]
            rw [threadedB_congr q.desc_shadow q4.desc_shadow (by rw [hl1, hs1])
              (free.drop k) (walkEnd q.desc_shadow q.free_head (free.take k))
              (fun x _ => hnext x)]
            exact hdrth
          · intro fl hfl
            rw [List.mem_append] at hfl
            rcases hfl with hfl | hfl
            · have hslots : ∀ x ∈ fl.slots, x ∉ free.take k := by
                intro x hx hxt
                refine hdisj x (htksub x hxt) ?_
                rw [List.mem_flatMap]
                exact ⟨fl, hfl, hx⟩
              show flightWFb q4.desc_shadow q4.indirect_lists fl = true
              rw [hf8]
              rw [flightWFb_congr q.desc_shadow q4.desc_shadow q.indirect_lists
                q.indirect_lists (by rw [hl1, hs1]) fl
                (fun x hx => huns x (hslots x hx)) (fun x _ => rfl)]
              exact hwf fl hfl
            · have hfl2 : fl = Flight.direct (free.take k) := by simpa using hfl
              subst hfl2
              show flightWFb q4.desc_shadow q4.indirect_lists
                (Flight.direct (free.take k)) = true
              refine flightWF_of_layout q4.desc_shadow q4.indirect_lists (free.take k)
                (ioSeq inputs outputs) hlayout ?_ htkne
              intro x hx
              have := threadedB_mem_lt q.desc_shadow free q.free_head hth x (htksub x hx)
              omega
          · intro j hjs
            have hjs2 : (q.indirect_lists.getD j none).isSome = true := by
              have hjs3 : (q4.indirect_lists.getD j none).isSome = true := hjs
              rw [hf8] at hjs3
              exact hjs3
            exact isIndirHead_append_left flights _ j (hdom j hjs2)

theorem perm_shuffle (A B s free : List Nat) :
    ((s ++ free) ++ (A ++ B)).Perm (free ++ (A ++ (s ++ B))) := by
  have h2 : ((s ++ free) ++ (A ++ B)).Perm ((free ++ s) ++ (A ++ B)) :=
    List.Perm.append_right (A ++ B) List.perm_append_comm
  refine h2.trans ?_
  rw [List.append_assoc]
  refine List.Perm.append_left free ?_
  rw [← List.append_assoc, ← List.append_assoc]
  exact List.Perm.append_right B List.perm_append_comm

theorem inv_pop {SIZE : Nat} (q : VQ SIZE) (free : List Nat) (flights : List Flight)
    (used : UsedRingMem) (token : Nat) (inputs outputs : List Buffer)
    (hinv : Inv q free flights)
    (hfl : ∃ fl ∈ flights,
      fl.headSlot = (used.ring.getD (q.last_used_idx &&& (SIZE - 1)) (0, 0)).1 % 65536 ∧
      fl.count = inputs.length + outputs.length)
    (hbufs : ∀ b ∈ ioSeq inputs outputs, b.1.len ≠ 0) :
    (∀ e q1, q.popUsed used token inputs outputs = PopResult.err e q1 → q1 = q) ∧
    (q.popUsed used token inputs outputs = PopResult.panic → False) ∧
    (∀ n q1, q.popUsed used token inputs outputs = PopResult.ok n q1 →
      ∃ free1 flights1, Inv q1 free1 flights1) := by
  obtain ⟨hndf, hndfl, hdisj, hlensum⟩ := inv_facts q free flights hinv
  obtain ⟨hs1, hs2, hs3, hsum, hperm, hth, hwf, hdom⟩ := hinv
  rw [popUsed_eq]
  by_cases hcp : q.canPop used = false
  · rw [if_pos hcp]
    refine ⟨?_, ?_, ?_⟩
    · intro e q1 h; cases h; rfl
    · intro h; cases h
    · intro n q1 h; cases h
  · rw [if_neg hcp]
    set hd := (used.ring.getD (q.last_used_idx &&& (SIZE - 1)) (0, 0)).1 % 65536 with hhdef
    by_cases htk : hd ≠ token
    · rw [if_pos htk]
      refine ⟨?_, ?_, ?_⟩
      · intro e q1 h; cases h; rfl
      · intro h; cases h
      · intro n q1 h; cases h
    · rw [if_neg htk]
      obtain ⟨fl, hflmem, hflhead, hflcount⟩ := hfl
      obtain ⟨l1, l2, rfl⟩ := List.append_of_mem hflmem
      simp only [List.flatMap_append, List.flatMap_cons] at hndfl hperm hlensum hdisj
      rw [List.nodup_append] at hndfl
      obtain ⟨hndA, hndSB, hdisjA⟩ := hndfl
      rw [List.nodup_append] at hndSB
      obtain ⟨hndS, hndB, hdisjSB⟩ := hndSB
      cases fl with
      | indir hh c =>
        have hhh : hh = hd := hflhead
        subst hhh
        have hwfl := hwf (Flight.indir hd c) (by simp)
        simp only [flightWFb, Bool.and_eq_true, decide_eq_true_eq] at hwfl
        obtain ⟨⟨hlt0, hflagInd⟩, hmatch⟩ := hwfl
        have hlt : hd < SIZE := by omega
        cases hil : q.indirect_lists.getD hd none with
        | none => rw [hil] at hmatch; simp at hmatch
        | some il =>
        rw [hil] at hmatch
        have hilc : il.length = c := by simpa using hmatch
        have hceq : il.length = inputs.length + outputs.length := by
          rw [hilc]
          exact hflcount
        have hall : ((ioSeq inputs outputs).all fun bd => bd.1.len != 0) = true := by
          rw [List.all_eq_true]
          intro bd hbd
          simpa using hbufs bd hbd
        have hmemflat : hd ∈ (Flight.indir hd c).slots := by simp [Flight.slots]
        have hdnotfree : hd ∉ free := by
          intro hinf
          exact hdisj hd hinf (by simp [Flight.slots])
        set d0 : Descriptor := q.desc_shadow.getD hd default with hd0def
        set d1 : Descriptor := { d0 with addr := 0, len := 0, next := q.free_head } with hd1def
        have hrec : recycle q hd inputs outputs = some
            { q with free_head := hd,
                     indirect_lists := q.indirect_lists.set hd none,
                     desc_shadow := q.desc_shadow.set hd d1,
                     num_used := q.num_used - 1 } := by
          simp only [recycle, if_pos hlt, hflagInd, hil, hall, eq_self_iff_true, if_true,
            if_pos hceq]
        rw [hrec]
        refine ⟨?_, ?_, ?_⟩
        · intro e q1 h; cases h
        · intro h; cases h
        · intro n q1 h
          cases h
          refine ⟨hd :: free, l1 ++ l2, ?_⟩
          have hI : Inv ({ q with
              free_head := hd,
              indirect_lists := q.indirect_lists.set hd none,
              desc_shadow := q.desc_shadow.set hd d1,
              num_used := q.num_used - 1 } : VQ SIZE) (hd :: free) (l1 ++ l2) := by
            refine ⟨?_, ?_, ?_, ?_, ?_, ?_, ?_, ?_⟩
            · show (q.desc_shadow.set hd _).length = SIZE
              rw [List.length_set]; exact hs1
            · exact hs2
            · show (q.indirect_lists.set hd none).length = SIZE
              rw [List.length_set]; exact hs3
            · show q.num_used - 1 + (hd :: free).length = SIZE
              simp only [Flight.slots, List.length_append, List.length_cons,
                List.length_nil] at hlensum
              simp only [List.length_cons]
              omega
            · show ((hd :: free) ++ (l1 ++ l2).flatMap Flight.slots).Perm (List.range SIZE)
              rw [List.flatMap_append]
              refine List.Perm.trans ?_ hperm
              exact perm_shuffle (l1.flatMap Flight.slots) (l2.flatMap Flight.slots)
                [hd] free
            · show threadedB (q.desc_shadow.set hd _) hd (hd :: free) = true
              show ((hd == hd) && decide (hd < (q.desc_shadow.set hd _).length) &&
                threadedB (q.desc_shadow.set hd _)
                  ((q.desc_shadow.set hd _).getD hd default).next free) = true
              rw [getD_set_self q.desc_shadow hd _ default (by omega)]
              simp only [Bool.and_eq_true, beq_self_eq_true, decide_eq_true_eq, true_and,
                List.length_set]
              refine ⟨by omega, ?_⟩
              rw [threadedB_congr q.desc_shadow (q.desc_shadow.set hd _)
                (by rw [List.length_set]) free q.free_head
                (fun x hx => by
                  rw [getD_set_ne q.desc_shadow hd x _ default
                    (fun he => hdnotfree (he ▸ hx))])]
              exact hth
            · intro fl2 hfl2
              have hfl2mem : fl2 ∈ l1 ++ Flight.indir hd c :: l2 := by
                rw [List.mem_append] at hfl2 ⊢
                rcases hfl2 with h | h
                · exact Or.inl h
                · exact Or.inr (List.mem_cons_of_mem _ h)
              have hslots : ∀ x ∈ fl2.slots, x ≠ hd := by
                intro x hx he
                rw [List.mem_append] at hfl2
                rcases hfl2 with h | h
                · exact hdisjA (List.mem_flatMap.mpr ⟨fl2, h, hx⟩)
                    (List.mem_append_left _ (by simp [Flight.slots, he]))
                · exact hdisjSB (by simp [Flight.slots])
                    (he ▸ List.mem_flatMap.mpr ⟨fl2, h, hx⟩)
              show flightWFb (q.desc_shadow.set hd _) (q.indirect_lists.set hd none) fl2 = true
              rw [flightWFb_congr q.desc_shadow (q.desc_shadow.set hd _) q.indirect_lists
                (q.indirect_lists.set hd none) (by rw [List.length_set]) fl2
                (fun x hx => getD_set_ne q.desc_shadow hd x _ default
                  (fun he => hslots x hx he.symm))
                (fun x hx => getD_set_ne q.indirect_lists hd x none none
                  (fun he => hslots x hx he.symm))]
              exact hwf fl2 hfl2mem
            · intro j hjs
              by_cases hj : j = hd
              · exfalso
                subst hj
                have h2 : ((q.indirect_lists.set hd none).getD hd none).isSome = true := hjs
                rw [getD_set_self q.indirect_lists hd none none (by omega)] at h2
                simp at h2
              · have hjs2 : (q.indirect_lists.getD j none).isSome = true := by
                  have hjs3 : ((q.indirect_lists.set hd none).getD j none).isSome = true := hjs
                  rw [getD_set_ne q.indirect_lists hd j none none
                    (fun he => hj he.symm)] at hjs3
                  exact hjs3
                obtain ⟨c2, hc2⟩ := isIndirHead_exists _ j (hdom j hjs2)
                rw [List.mem_append, List.mem_cons] at hc2
                rcases hc2 with h | h | h
                · exact isIndirHead_of_mem _ j c2 (List.mem_append_left _ h)
                · exfalso
                  rw [Flight.indir.injEq] at h
                  exact hj h.1
                · exact isIndirHead_of_mem _ j c2 (List.mem_append_right _ h)
          split
          · exact hI
          · exact hI
      | direct s =>
        have hwfl := hwf (Flight.direct s) (by simp)
        simp only [flightWFb, Bool.and_eq_true, Bool.not_eq_true'] at hwfl
        obtain ⟨⟨hsne, hchain⟩, hheadind⟩ := hwfl
        obtain ⟨sh, srest, rfl⟩ : ∃ sh srest, s = sh :: srest := by
          cases s with
          | nil => simp at hsne
          | cons a l => exact ⟨a, l, rfl⟩
        have hsh : sh = hd := hflhead
        subst hsh
        have hcount : (hd :: srest).length = inputs.length + outputs.length := hflcount
        have hlt : hd < SIZE := by
          cases srest with
          | nil =>
            simp only [directChainB, Bool.and_eq_true, decide_eq_true_eq] at hchain
            omega
          | cons a l =>
            simp only [directChainB, Bool.and_eq_true, decide_eq_true_eq] at hchain
            omega
        have hsnotfree : ∀ x ∈ hd :: srest, x ∉ free := by
          intro x hx hinf
          refine hdisj x hinf ?_
          rw [List.mem_append]
          exact Or.inr (List.mem_append_left _ hx)
        obtain ⟨q2, hrun, hl1, hl2, huns, hund, hth2, hwe, hnu, hfh, hil, hg1, hg2, hg3, hg4,
          hg5, hg6, hg7⟩ :=
          recycleGo_spec q.free_head srest (ioSeq inputs outputs)
            ({ q with free_head := hd } : VQ SIZE) hd hs1 hs2 hchain
            (by rw [ioSeq_length]; simp only [List.length_cons] at hcount; omega)
            hbufs hndS
        have hheadind2 : hasFlag (q.desc_shadow.getD hd default).flags INDIRECT_FLAG =
            false := by simpa using hheadind
        have hrec : recycle q hd inputs outputs = some q2 := by
          simp only [recycle, if_pos hlt, hheadind2, Bool.false_eq_true, if_false]
          exact hrun
        rw [hrec]
        refine ⟨?_, ?_, ?_⟩
        · intro e q1 h; cases h
        · intro h; cases h
        · intro n q1 h
          cases h
          refine ⟨(hd :: srest) ++ free, l1 ++ l2, ?_⟩
          have hI : Inv q2 ((hd :: srest) ++ free) (l1 ++ l2) := by
            refine ⟨hl1, hl2, ?_, ?_, ?_, ?_, ?_, ?_⟩
            · rw [hil]
              exact hs3
            · have hK : (ioSeq inputs outputs).length = srest.length + 1 := by
                rw [ioSeq_length]
                simp only [List.length_cons] at hcount
                omega
              have hSZ : srest.length + 1 + (l1.flatMap Flight.slots).length +
                  (l2.flatMap Flight.slots).length + free.length = SIZE := by
                simp only [Flight.slots, List.length_append, List.length_cons] at hlensum
                omega
              rw [hnu, hK]
              show q.num_used - (srest.length + 1) + ((hd :: srest) ++ free).length = SIZE
              rw [List.length_append]
              simp only [List.length_cons]
              omega
            · rw [List.flatMap_append]
              refine List.Perm.trans ?_ hperm
              exact perm_shuffle (l1.flatMap Flight.slots) (l2.flatMap Flight.slots)
                (hd :: srest) free
            · have hfh2 : q2.free_head = hd := hfh
              rw [hfh2]
              refine threadedB_append_join q2.desc_shadow (hd :: srest) free hd hth2 ?_
              rw [hwe]
              rw [threadedB_congr q.desc_shadow q2.desc_shadow (by rw [hl1, hs1]) free
                q.free_head
                (fun x hx => by rw [huns x (fun hmem => hsnotfree x hmem hx)])]
              exact hth
            · intro fl2 hfl2
              have hfl2mem : fl2 ∈ l1 ++ Flight.direct (hd :: srest) :: l2 := by
                rw [List.mem_append] at hfl2 ⊢
                rcases hfl2 with h | h
                · exact Or.inl h
                · exact Or.inr (List.mem_cons_of_mem _ h)
              have hslots : ∀ x ∈ fl2.slots, x ∉ hd :: srest := by
                intro x hx hxs
                rw [List.mem_append] at hfl2
                rcases hfl2 with h | h
                · exact hdisjA (List.mem_flatMap.mpr ⟨fl2, h, hx⟩)
                    (List.mem_append_left _
                      (show x ∈ (Flight.direct (hd :: srest)).slots from hxs))
                · exact hdisjSB (show x ∈ (Flight.direct (hd :: srest)).slots from hxs)
                    (List.mem_flatMap.mpr ⟨fl2, h, hx⟩)
              rw [hil]
              rw [flightWFb_congr q.desc_shadow q2.desc_shadow q.indirect_lists
                q.indirect_lists (by rw [hl1, hs1]) fl2
                (fun x hx => huns x (hslots x hx)) (fun x _ => rfl)]
              exact hwf fl2 hfl2mem
            · intro j hjs
              rw [hil] at hjs
              obtain ⟨c2, hc2⟩ := isIndirHead_exists _ j (hdom j hjs)
              rw [List.mem_append, List.mem_cons] at hc2
              rcases hc2 with h | h | h
              · exact isIndirHead_of_mem _ j c2 (List.mem_append_left _ h)
              · cases h
              · exact isIndirHead_of_mem _ j c2 (List.mem_append_right _ h)
          split
          · exact hI
          · exact hI
